import Mathlib

/-!
# DigiSys: a sample-by-sample rational transfer function filter

Shallow embedding of `DigiSys.h` / `DigiSys.cpp`.

* The sample type is a parameter `α`.  Instantiated with `ℚ` it is the exact
  arithmetic the difference equation is stated in; instantiated with `Dbl`
  it additionally tracks non-finite values: the quotient a division by zero
  yields, or an infinite argument.
* A C array `double a[MAX_LEN]` is an `Arr`: exactly `MAX_LEN` cells.  Every
  access is checked: where the source has undefined behaviour the embedding
  stops with the `Fault` that names the offending access.
* `mDenCoeffs` and `mNumCoeffs` have no initialiser, so their cells start
  indeterminate (`none`); reading an indeterminate cell is a fault.
* The caller's arrays `num[]`, `den[]` are lists; reading past their end is
  a fault.
* Lengths are C `int`s (`Int` here); the loops compare them with a `size_t`
  counter, which converts them with `toSizeT`.  Signed overflow of
  `mNumLen - 1` is outside the embedding.
* Rounding is not modelled: the arithmetic on finite values is exact.
-/

namespace DigiSys

/-- Capacity of every coefficient and history array: `#define MAX_LEN 10`. -/
abbrev MAX_LEN : Nat := 10

/-- The accesses the source leaves undefined. -/
inductive Fault where
  /-- Read of `a[i]` outside a member array. -/
  | load (i : Nat)
  /-- Write of `a[i]` outside a member array. -/
  | store (i : Nat)
  /-- Read of a coefficient cell that was never written. -/
  | indeterminate (i : Nat)
  /-- Read past the end of an array passed by the caller. -/
  | arg (i : Nat)
  deriving DecidableEq

/-- A C array of `MAX_LEN` cells. -/
structure Arr (β : Type) where
  cells : List β
  size_eq : cells.length = MAX_LEN

/-- An array with the same value in every cell. -/
def Arr.fill {β : Type} (v : β) : Arr β :=
  ⟨List.replicate MAX_LEN v, List.length_replicate MAX_LEN v⟩

/-- Checked read `a[i]`. -/
def Arr.rd {β : Type} (a : Arr β) (i : Nat) : Except Fault β :=
  match a.cells[i]? with
  | some v => .ok v
  | none => .error (.load i)

/-- Checked write `a[i] = v`. -/
def Arr.wr {β : Type} (a : Arr β) (i : Nat) (v : β) : Except Fault (Arr β) :=
  if i < MAX_LEN then
    .ok ⟨a.cells.set i v, (List.length_set a.cells i v).trans a.size_eq⟩
  else .error (.store i)

/-- Checked read of a cell that may still be indeterminate. -/
def Arr.rdInit {β : Type} (a : Arr (Option β)) (i : Nat) : Except Fault β :=
  (a.rd i).bind fun c =>
    match c with
    | some v => .ok v
    | none => .error (.indeterminate i)

/-- Checked read `p[i]` of an array passed by the caller. -/
def argRd {β : Type} (p : List β) (i : Nat) : Except Fault β :=
  match p[i]? with
  | some v => .ok v
  | none => .error (.arg i)

/-- Conversion of an `int` to `size_t` (taken to be 64 bits wide), as done
when an `int` length is compared with, or assigned to, a `size_t` counter. -/
def toSizeT (n : Int) : Nat :=
  (n % 2 ^ 64).toNat

/-- The largest value of an `int` (at most 32 bits wide). -/
abbrev INT_MAX : Int := 2147483647

/-- The loop `for (size_t i = i0; i < n; i++) body`, where the first
argument is the number `n - i0` of iterations left. -/
def forUp {σ : Type} (body : Nat → σ → Except Fault σ) : Nat → Nat → σ → Except Fault σ
  | 0, _, s => .ok s
  | k + 1, i, s => (body i s).bind (forUp body k (i + 1))

/-- The loop `for (size_t i = i0; i > 0; i--) body`. -/
def forDown {σ : Type} (body : Nat → σ → Except Fault σ) : Nat → σ → Except Fault σ
  | 0, s => .ok s
  | i + 1, s => (body (i + 1) s).bind (forDown body i)

/-- A double with an exact value: finite, or non-finite (an infinity or a
NaN, not told apart). -/
inductive Dbl where
  | fin (q : ℚ)
  | nonfin
  deriving DecidableEq

instance : Zero Dbl := ⟨.fin 0⟩

instance : One Dbl := ⟨.fin 1⟩

/-- A sum with a non-finite operand is non-finite. -/
instance : Add Dbl :=
  ⟨fun a b => match a, b with
    | .fin p, .fin q => .fin (p + q)
    | _, _ => .nonfin⟩

/-- A product with a non-finite operand is non-finite. -/
instance : Mul Dbl :=
  ⟨fun a b => match a, b with
    | .fin p, .fin q => .fin (p * q)
    | _, _ => .nonfin⟩

instance : Neg Dbl :=
  ⟨fun a => match a with
    | .fin p => .fin (-p)
    | .nonfin => .nonfin⟩

/-- Division of finite values: by zero it is non-finite (`x/0` is an
infinity, `0/0` a NaN).  A non-finite dividend gives a non-finite quotient;
a non-finite divisor is given the same result, which the filter never
meets when `num` and `den` are finite (the only divisor is `den[0]`). -/
instance : Div Dbl :=
  ⟨fun a b => match a, b with
    | .fin p, .fin q => if q = 0 then .nonfin else .fin (p / q)
    | _, _ => .nonfin⟩

end DigiSys

/-- The data members of `class DigiSys`. -/
structure DigiSys (α : Type) where
  mDenLen : Int
  mNumLen : Int
  mDenCoeffs : DigiSys.Arr (Option α)
  mNumCoeffs : DigiSys.Arr (Option α)
  mOutput : DigiSys.Arr α
  mInput : DigiSys.Arr α
  mGain : α

namespace DigiSys

variable {α : Type}

/-- Body of the constructor loop `mNumCoeffs[i] = num[i]`. -/
def numCopyBody (num : List α) (i : Nat) (a : Arr (Option α)) :
    Except Fault (Arr (Option α)) := do
  let v ← argRd num i
  a.wr i (some v)

/-- Body of the constructor loop `mDenCoeffs[i] = den[i]/den[0]`. -/
def denCopyBody [Div α] (den : List α) (i : Nat) (a : Arr (Option α)) :
    Except Fault (Arr (Option α)) := do
  let v ← argRd den i
  let d0 ← argRd den 0
  a.wr i (some (v / d0))

/-- The constructor `DigiSys(num, den, num_len, den_len)`.  The histories
start as `{0}` and the gain as `1.` (the member initialisers); the
coefficient arrays start indeterminate. -/
def construct [Zero α] [One α] [Div α] (num den : List α) (num_len den_len : Int) :
    Except Fault (DigiSys α) := do
  let mNumLen := num_len
  let mDenLen := den_len
  let mNumCoeffs ← forUp (numCopyBody num) (toSizeT mNumLen - 0) 0 (Arr.fill none)
  let mDenCoeffs ← forUp (denCopyBody den) (toSizeT mDenLen - 0) 0 (Arr.fill none)
  let d0 ← argRd den 0
  .ok { mDenLen := mDenLen, mNumLen := mNumLen,
        mDenCoeffs := mDenCoeffs, mNumCoeffs := mNumCoeffs,
        mOutput := Arr.fill 0, mInput := Arr.fill 0,
        mGain := 1 / d0 }

/-- The constructor `DigiSys(gain, num, den, num_len, den_len)`: delegates
to the other constructor, then `mGain *= gain`. -/
def constructGain [Zero α] [One α] [Div α] [Mul α] (gain : α) (num den : List α)
    (num_len den_len : Int) : Except Fault (DigiSys α) := do
  let f ← construct num den num_len den_len
  .ok { f with mGain := f.mGain * gain }

/-- Body of the two shifting loops: `a[i] = a[i-1]`. -/
def shiftBody (i : Nat) (a : Arr α) : Except Fault (Arr α) := do
  let v ← a.rd (i - 1)
  a.wr i v

/-- Body of the numerator loop: `mOutput[0] += mNumCoeffs[i]*mInput[i]`. -/
def numBody [Add α] [Mul α] (mNumCoeffs : Arr (Option α)) (mInput : Arr α)
    (i : Nat) (mOutput : Arr α) : Except Fault (Arr α) := do
  let c ← mNumCoeffs.rdInit i
  let x ← mInput.rd i
  let o ← mOutput.rd 0
  mOutput.wr 0 (o + c * x)

/-- Body of the feedback loop: `mOutput[0] += -mDenCoeffs[i]*mOutput[i]`. -/
def denBody [Add α] [Mul α] [Neg α] (mDenCoeffs : Arr (Option α))
    (i : Nat) (mOutput : Arr α) : Except Fault (Arr α) := do
  let d ← mDenCoeffs.rdInit i
  let oi ← mOutput.rd i
  let o ← mOutput.rd 0
  mOutput.wr 0 (o + -d * oi)

/-- The method `double DigiSys::update(double input)`: the object after the
call and the returned value. -/
def update [Zero α] [Add α] [Mul α] [Neg α] (f : DigiSys α) (input : α) :
    Except Fault (DigiSys α × α) := do
  -- shift existing arrays
  let mInput ← forDown shiftBody (toSizeT (f.mNumLen - 1)) f.mInput
  let mOutput ← forDown shiftBody (toSizeT (f.mDenLen - 1)) f.mOutput
  -- add measurement
  let mInput ← mInput.wr 0 input
  -- calculate new output
  let mOutput ← mOutput.wr 0 0
  let mOutput ← forUp (numBody f.mNumCoeffs mInput) (toSizeT f.mNumLen - 0) 0 mOutput
  let o ← mOutput.rd 0
  let mOutput ← mOutput.wr 0 (o * f.mGain)
  let mOutput ← forUp (denBody f.mDenCoeffs) (toSizeT f.mDenLen - 1) 1 mOutput
  let y ← mOutput.rd 0
  .ok ({ f with mOutput := mOutput, mInput := mInput }, y)

/-- Successive `update` calls, one per input sample: the final object and
the returned values in call order. -/
def run [Zero α] [Add α] [Mul α] [Neg α] (f : DigiSys α) :
    List α → Except Fault (DigiSys α × List α)
  | [] => .ok (f, [])
  | x :: xs => do
    let (f1, y) ← f.update x
    let (f2, ys) ← f1.run xs
    .ok (f2, y :: ys)

/-- The value of cell `i`, and `0` outside the array. -/
def Arr.val {β : Type} [Zero β] (a : Arr β) (i : Nat) : β :=
  (a.cells[i]?).getD 0

/-- The value of coefficient cell `i`, and `0` where it is indeterminate or
outside the array. -/
def Arr.coef {β : Type} [Zero β] (a : Arr (Option β)) (i : Nat) : β :=
  ((a.cells[i]?).join).getD 0

/-- Both lengths are within `1 .. MAX_LEN`. -/
def LensOk (f : DigiSys α) : Prop :=
  1 ≤ f.mNumLen ∧ f.mNumLen ≤ MAX_LEN ∧ 1 ≤ f.mDenLen ∧ f.mDenLen ≤ MAX_LEN

/-- The coefficient cells `update` reads have been written: `mNumCoeffs[j]`
for `j < mNumLen` and `mDenCoeffs[j]` for `1 ≤ j < mDenLen`. -/
def CoeffsInit (f : DigiSys α) : Prop :=
  (∀ j, j < f.mNumLen.toNat → ((f.mNumCoeffs.cells[j]?).join).isSome = true) ∧
  (∀ j, 1 ≤ j → j < f.mDenLen.toNat → ((f.mDenCoeffs.cells[j]?).join).isSome = true)

/-- The sample `s[n - i]` of a sequence, with `s[k] = 0` for `k < 0`. -/
def past (s : List ℚ) (n i : Nat) : ℚ :=
  if i ≤ n then s.getD (n - i) 0 else 0

/-- A filter state in the middle of a run, with `numLen = 3`, `denLen = 2`:
three coefficients `2, -1, 4`, the feedback coefficient `1/2`, gain `3`, the
inputs `5, 7, 1` and the output `6` in the histories. -/
def exampleState : DigiSys ℚ :=
  { mDenLen := 2, mNumLen := 3,
    mDenCoeffs := ⟨[some 1, some (1 / 2), none, none, none, none, none, none, none, none], rfl⟩,
    mNumCoeffs := ⟨[some 2, some (-1), some 4, none, none, none, none, none, none, none], rfl⟩,
    mOutput := ⟨[6, 9, 0, 0, 0, 0, 0, 0, 0, 0], rfl⟩,
    mInput := ⟨[5, 7, 1, 8, 0, 0, 0, 0, 0, 0], rfl⟩,
    mGain := 3 }

end DigiSys

/-! ## Arrays and loops -/

namespace DigiSys

variable {β : Type}

theorem Arr.ext_cells {a b : Arr β} (h : a.cells = b.cells) : a = b := by
  cases a; cases b; cases h; rfl

theorem Arr.ext_get {a b : Arr β} (h : ∀ j : Nat, a.cells[j]? = b.cells[j]?) : a = b :=
  Arr.ext_cells (List.ext_getElem? h)

theorem Arr.get_some (a : Arr β) {i : Nat} (h : i < MAX_LEN) : ∃ v, a.cells[i]? = some v := by
  have hi : i < a.cells.length := by rw [a.size_eq]; exact h
  exact ⟨a.cells[i], by simp [hi]⟩

theorem Arr.get_none (a : Arr β) {i : Nat} (h : MAX_LEN ≤ i) : a.cells[i]? = none := by
  have hi : a.cells.length ≤ i := by rw [a.size_eq]; exact h
  simp [hi]

theorem Arr.rd_of_get (a : Arr β) {i : Nat} {v : β} (h : a.cells[i]? = some v) :
    a.rd i = .ok v := by
  simp [Arr.rd, h]

theorem Arr.wr_ok (a : Arr β) {i : Nat} (v : β) (h : i < MAX_LEN) :
    ∃ a', a.wr i v = .ok a' ∧ ∀ j, a'.cells[j]? = if j = i then some v else a.cells[j]? := by
  have hi : i < a.cells.length := by rw [a.size_eq]; exact h
  refine ⟨⟨a.cells.set i v, (List.length_set a.cells i v).trans a.size_eq⟩, by simp [Arr.wr, h], ?_⟩
  intro j
  by_cases hj : j = i
  · subst hj; simp [hi]
  · have hj' : i ≠ j := fun h => hj h.symm
    simp [hj, hj']

theorem Arr.wr_store (a : Arr β) {i : Nat} (v : β) (h : MAX_LEN ≤ i) :
    a.wr i v = .error (.store i) := by
  have : ¬ i < MAX_LEN := by omega
  simp [Arr.wr, this]

theorem Arr.get_fill (v : β) {i : Nat} (h : i < MAX_LEN) : (Arr.fill v).cells[i]? = some v := by
  simp [Arr.fill, h]

theorem Arr.val_fill [Zero β] (i : Nat) : (Arr.fill (0 : β)).val i = 0 := by
  by_cases h : i < MAX_LEN
  · simp [Arr.val, Arr.get_fill (0 : β) h]
  · simp [Arr.val, Arr.get_none _ (Nat.le_of_not_lt h)]

theorem Arr.get_eq_val [Zero β] (a : Arr β) {i : Nat} (h : i < MAX_LEN) :
    a.cells[i]? = some (a.val i) := by
  obtain ⟨v, hv⟩ := a.get_some h
  simp [Arr.val, hv]

theorem Arr.rd_eq_val [Zero β] (a : Arr β) {i : Nat} (h : i < MAX_LEN) :
    a.rd i = .ok (a.val i) :=
  a.rd_of_get (a.get_eq_val h)

theorem Arr.rdInit_of_get (a : Arr (Option β)) {i : Nat} {v : β}
    (h : a.cells[i]? = some (some v)) : a.rdInit i = .ok v := by
  simp [Arr.rdInit, a.rd_of_get h, Except.bind]

theorem Arr.rdInit_of_isSome [Zero β] (a : Arr (Option β)) {i : Nat}
    (h : ((a.cells[i]?).join).isSome = true) : a.rdInit i = .ok (a.coef i) := by
  obtain ⟨v, hv⟩ := Option.isSome_iff_exists.mp h
  have hget : a.cells[i]? = some (some v) := by
    cases hc : a.cells[i]? with
    | none => rw [hc] at hv; simp at hv
    | some c => rw [hc] at hv; simp at hv; rw [hv]
  rw [a.rdInit_of_get hget]
  simp [Arr.coef, hget]

theorem toSizeT_of_range {n : Int} (h0 : 0 ≤ n) (h1 : n ≤ MAX_LEN) : toSizeT n = n.toNat := by
  unfold toSizeT
  rw [Int.emod_eq_of_lt h0 (by simp at h1; omega)]

/-- The shifting loop started at `k < MAX_LEN` succeeds; afterwards cell `j`
holds the old cell `j - 1` for `1 ≤ j ≤ k` and is untouched otherwise. -/
theorem forDown_shift (k : Nat) (hk : k < MAX_LEN) (a : Arr β) :
    ∃ a', forDown shiftBody k a = .ok a' ∧
      ∀ j, a'.cells[j]? = if 1 ≤ j ∧ j ≤ k then a.cells[j - 1]? else a.cells[j]? := by
  induction k generalizing a with
  | zero =>
    refine ⟨a, rfl, fun j => ?_⟩
    have : ¬ (1 ≤ j ∧ j ≤ 0) := by omega
    rw [if_neg this]
  | succ k ih =>
    obtain ⟨v, hv⟩ := a.get_some (show k < MAX_LEN by omega)
    obtain ⟨a1, h1, h1rd⟩ := a.wr_ok v hk
    obtain ⟨a2, h2, h2rd⟩ := ih (by omega) a1
    refine ⟨a2, ?_, fun j => ?_⟩
    · simp [forDown, shiftBody, a.rd_of_get hv, h1, h2, bind, Except.bind]
    · rw [h2rd j]
      by_cases hj : 1 ≤ j ∧ j ≤ k
      · have hj1 : j - 1 ≠ k + 1 := by omega
        have hj2 : 1 ≤ j ∧ j ≤ k + 1 := by omega
        simp [hj, hj2, h1rd, hj1]
      · by_cases hj3 : j = k + 1
        · subst hj3; simp [h1rd, hv]
        · have hj2 : ¬ (1 ≤ j ∧ j ≤ k + 1) := by omega
          simp [hj, hj2, h1rd, hj3]

/-- The numerator loop over `i, ..., i + k - 1` inside the arrays, with the
coefficients it reads initialised, succeeds, adds the products to cell 0 and
touches no other cell. -/
theorem forUp_numBody (c : Arr (Option ℚ)) (inp : Arr ℚ) (k i : Nat) (out : Arr ℚ)
    (hk : i + k ≤ MAX_LEN)
    (hc : ∀ j, i ≤ j → j < i + k → ((c.cells[j]?).join).isSome = true) :
    ∃ out', forUp (numBody c inp) k i out = .ok out' ∧
      out'.val 0 = out.val 0 + ∑ j ∈ Finset.Ico i (i + k), c.coef j * inp.val j ∧
      ∀ j, j ≠ 0 → out'.cells[j]? = out.cells[j]? := by
  induction k generalizing i out with
  | zero => exact ⟨out, rfl, by simp, fun _ _ => rfl⟩
  | succ k ih =>
    have hv := c.rdInit_of_isSome (hc i (le_refl i) (by omega))
    have hx := inp.rd_eq_val (show i < MAX_LEN by omega)
    have ho := out.rd_eq_val (show 0 < MAX_LEN by decide)
    obtain ⟨o1, h1, h1rd⟩ := out.wr_ok (out.val 0 + c.coef i * inp.val i)
      (show 0 < MAX_LEN by decide)
    obtain ⟨o2, h2, h2v, h2rd⟩ := ih (i + 1) o1 (by omega)
      (fun j hj1 hj2 => hc j (by omega) (by omega))
    refine ⟨o2, ?_, ?_, fun j hj => ?_⟩
    · simp [forUp, numBody, hv, hx, ho, h1, h2, bind, Except.bind]
    · have hv0 : o1.val 0 = out.val 0 + c.coef i * inp.val i := by simp [Arr.val, h1rd]
      rw [h2v, hv0, Finset.sum_eq_sum_Ico_succ_bot (by omega : i < i + (k + 1))]
      have : i + 1 + k = i + (k + 1) := by omega
      rw [this]; ring
    · rw [h2rd j hj, h1rd j]; simp [hj]

/-- The feedback loop over `i, ..., i + k - 1` with `1 ≤ i`, inside the
arrays and with the coefficients it reads initialised, succeeds, adds the
products to cell 0 and touches no other cell. -/
theorem forUp_denBody (d : Arr (Option ℚ)) (k i : Nat) (out : Arr ℚ) (hi : 1 ≤ i)
    (hk : i + k ≤ MAX_LEN)
    (hd : ∀ j, i ≤ j → j < i + k → ((d.cells[j]?).join).isSome = true) :
    ∃ out', forUp (denBody d) k i out = .ok out' ∧
      out'.val 0 = out.val 0 + ∑ j ∈ Finset.Ico i (i + k), -d.coef j * out.val j ∧
      ∀ j, j ≠ 0 → out'.cells[j]? = out.cells[j]? := by
  induction k generalizing i out with
  | zero => exact ⟨out, rfl, by simp, fun _ _ => rfl⟩
  | succ k ih =>
    have hv := d.rdInit_of_isSome (hd i (le_refl i) (by omega))
    have hx := out.rd_eq_val (show i < MAX_LEN by omega)
    have ho := out.rd_eq_val (show 0 < MAX_LEN by decide)
    obtain ⟨o1, h1, h1rd⟩ := out.wr_ok (out.val 0 + -d.coef i * out.val i)
      (show 0 < MAX_LEN by decide)
    obtain ⟨o2, h2, h2v, h2rd⟩ := ih (i + 1) o1 (by omega) (by omega)
      (fun j hj1 hj2 => hd j (by omega) (by omega))
    refine ⟨o2, ?_, ?_, fun j hj => ?_⟩
    · have h1' := h1
      simp only [neg_mul] at h1'
      simp [forUp, denBody, hv, hx, ho, h1', h2, bind, Except.bind]
    · have hv0 : o1.val 0 = out.val 0 + -d.coef i * out.val i := by simp [Arr.val, h1rd]
      have hsame : ∀ j ∈ Finset.Ico (i + 1) (i + 1 + k),
          -d.coef j * o1.val j = -d.coef j * out.val j := by
        intro j hj
        have : j ≠ 0 := by simp at hj; omega
        simp [Arr.val, h1rd, this]
      rw [h2v, hv0, Finset.sum_congr rfl hsame,
        Finset.sum_eq_sum_Ico_succ_bot (by omega : i < i + (k + 1))]
      have : i + 1 + k = i + (k + 1) := by omega
      rw [this]; ring
    · rw [h2rd j hj, h1rd j]; simp [hj]

/-- One `update` call on an object with lengths in range and its coefficients
written: it succeeds, shifts both histories, and returns the difference
equation's value. -/
theorem update_spec (f : DigiSys ℚ) (x : ℚ) (hl : f.LensOk) (hc : f.CoeffsInit) :
    ∃ inp out, f.update x = .ok ({ f with mOutput := out, mInput := inp }, out.val 0) ∧
      (∀ j, inp.cells[j]? = if j = 0 then some x
        else if j < f.mNumLen.toNat then f.mInput.cells[j - 1]? else f.mInput.cells[j]?) ∧
      (∀ j, j ≠ 0 → out.cells[j]? =
        if j < f.mDenLen.toNat then f.mOutput.cells[j - 1]? else f.mOutput.cells[j]?) ∧
      out.val 0 = (∑ j ∈ Finset.range f.mNumLen.toNat, f.mNumCoeffs.coef j * inp.val j) * f.mGain
        + ∑ j ∈ Finset.Ico 1 f.mDenLen.toNat, -f.mDenCoeffs.coef j * f.mOutput.val (j - 1) := by
  obtain ⟨hn1, hn2, hd1, hd2⟩ := hl
  obtain ⟨hcn, hcd⟩ := hc
  have hn2' : f.mNumLen ≤ 10 := hn2
  have hd2' : f.mDenLen ≤ 10 := hd2
  have eN : toSizeT f.mNumLen = f.mNumLen.toNat := toSizeT_of_range (by omega) hn2
  have eD : toSizeT f.mDenLen = f.mDenLen.toNat := toSizeT_of_range (by omega) hd2
  have eN1 : toSizeT (f.mNumLen - 1) = f.mNumLen.toNat - 1 := by
    rw [toSizeT_of_range (by omega) (by simp; omega)]; omega
  have eD1 : toSizeT (f.mDenLen - 1) = f.mDenLen.toNat - 1 := by
    rw [toSizeT_of_range (by omega) (by simp; omega)]; omega
  have bN : f.mNumLen.toNat ≤ MAX_LEN := by simp; omega
  have bD : f.mDenLen.toNat ≤ MAX_LEN := by simp; omega
  have pN : 1 ≤ f.mNumLen.toNat := by omega
  have pD : 1 ≤ f.mDenLen.toNat := by omega
  obtain ⟨i1, hi1, hi1rd⟩ := forDown_shift (f.mNumLen.toNat - 1) (by simp at bN ⊢; omega) f.mInput
  obtain ⟨o1, ho1, ho1rd⟩ := forDown_shift (f.mDenLen.toNat - 1) (by simp at bD ⊢; omega) f.mOutput
  obtain ⟨i2, hi2, hi2rd⟩ := i1.wr_ok x (show 0 < MAX_LEN by decide)
  obtain ⟨o2, ho2, ho2rd⟩ := o1.wr_ok (0 : ℚ) (show 0 < MAX_LEN by decide)
  obtain ⟨o3, ho3, ho3v, ho3rd⟩ := forUp_numBody f.mNumCoeffs i2 f.mNumLen.toNat 0 o2
    (by omega) (fun j _ hj => hcn j (by omega))
  obtain ⟨o4, ho4, ho4rd⟩ := o3.wr_ok (o3.val 0 * f.mGain) (show 0 < MAX_LEN by decide)
  obtain ⟨o5, ho5, ho5v, ho5rd⟩ := forUp_denBody f.mDenCoeffs (f.mDenLen.toNat - 1) 1 o4
    (le_refl 1) (by omega) (fun j hj1 hj => hcd j hj1 (by omega))
  have ho3' := o3.rd_eq_val (show 0 < MAX_LEN by decide)
  have ho5' := o5.rd_eq_val (show 0 < MAX_LEN by decide)
  have hshift : ∀ j, j ≠ 0 → o4.cells[j]? =
      if j < f.mDenLen.toNat then f.mOutput.cells[j - 1]? else f.mOutput.cells[j]? := by
    intro j hj
    rw [ho4rd, if_neg hj, ho3rd j hj, ho2rd, if_neg hj, ho1rd]
    by_cases h : j < f.mDenLen.toNat
    · rw [if_pos h, if_pos (by omega)]
    · rw [if_neg h, if_neg (by omega)]
  refine ⟨i2, o5, ?_, fun j => ?_, fun j hj => ?_, ?_⟩
  · simp [update, eN, eD, eN1, eD1, hi1, ho1, hi2, ho2, ho3, ho3', ho4, ho5, ho5',
      bind, Except.bind]
  · rw [hi2rd, hi1rd]
    by_cases h0 : j = 0
    · simp [h0]
    · rw [if_neg h0, if_neg h0]
      by_cases h : j < f.mNumLen.toNat
      · rw [if_pos h, if_pos (by omega)]
      · rw [if_neg h, if_neg (by omega)]
  · rw [ho5rd j hj, hshift j hj]
  · have h4 : o4.val 0 = o3.val 0 * f.mGain := by simp [Arr.val, ho4rd]
    have h2 : o2.val 0 = 0 := by simp [Arr.val, ho2rd]
    have hsame : ∀ j ∈ Finset.Ico 1 (1 + (f.mDenLen.toNat - 1)),
        -f.mDenCoeffs.coef j * o4.val j = -f.mDenCoeffs.coef j * f.mOutput.val (j - 1) := by
      intro j hj
      have hj' : 1 ≤ j ∧ j < 1 + (f.mDenLen.toNat - 1) := by simpa using hj
      have : o4.val j = f.mOutput.val (j - 1) := by
        unfold Arr.val
        rw [hshift j (by omega), if_pos (by omega)]
      rw [this]
    rw [ho5v, h4, ho3v, h2, Finset.sum_congr rfl hsame]
    have e1 : 1 + (f.mDenLen.toNat - 1) = f.mDenLen.toNat := by omega
    rw [e1, zero_add, zero_add, Finset.range_eq_Ico]

end DigiSys

/-! ## The constructors -/

namespace DigiSys

variable {β : Type}

/-- A copy loop whose body stores `w j` at index `j`, run over
`i, ..., i + k - 1` inside the array: it succeeds and has written exactly
those cells. -/
theorem forUp_copy (body : Nat → Arr β → Except Fault (Arr β)) (w : Nat → β)
    (k i : Nat) (a : Arr β) (hk : i + k ≤ MAX_LEN)
    (hb : ∀ j, i ≤ j → j < i + k → ∀ s, body j s = s.wr j (w j)) :
    ∃ a', forUp body k i a = .ok a' ∧
      ∀ j, a'.cells[j]? = if i ≤ j ∧ j < i + k then some (w j) else a.cells[j]? := by
  induction k generalizing i a with
  | zero =>
    refine ⟨a, rfl, fun j => ?_⟩
    have : ¬ (i ≤ j ∧ j < i + 0) := by omega
    rw [if_neg this]
  | succ k ih =>
    obtain ⟨a1, h1, h1rd⟩ := a.wr_ok (w i) (show i < MAX_LEN by omega)
    obtain ⟨a2, h2, h2rd⟩ := ih (i + 1) a1 (by omega)
      (fun j hj1 hj2 => hb j (by omega) (by omega))
    refine ⟨a2, ?_, fun j => ?_⟩
    · simp [forUp, hb i (le_refl i) (by omega), h1, h2, Except.bind]
    · rw [h2rd j, h1rd j]
      by_cases hj : i + 1 ≤ j ∧ j < i + 1 + k
      · rw [if_pos hj, if_pos (by omega)]
      · rw [if_neg hj]
        by_cases hji : j = i
        · rw [if_pos hji, if_pos (by omega), hji]
        · rw [if_neg hji, if_neg (by omega)]

/-- A copy loop whose body stores at its index, run over a range that
reaches index `MAX_LEN`: it stops with the store outside the array. -/
theorem forUp_copy_store (body : Nat → Arr β → Except Fault (Arr β)) (w : Nat → β)
    (k i : Nat) (a : Arr β) (hi : i ≤ MAX_LEN) (hk : MAX_LEN < i + k)
    (hb : ∀ j, i ≤ j → j ≤ MAX_LEN → ∀ s, body j s = s.wr j (w j)) :
    forUp body k i a = .error (.store MAX_LEN) := by
  induction k generalizing i a with
  | zero => omega
  | succ k ih =>
    by_cases hlt : i < MAX_LEN
    · obtain ⟨a1, h1, _⟩ := a.wr_ok (w i) hlt
      have h2 := ih (i + 1) a1 (by omega) (by omega) (fun j hj1 hj2 => hb j (by omega) hj2)
      simp [forUp, hb i (le_refl i) hi, h1, h2, Except.bind]
    · have hi' : i = MAX_LEN := by omega
      subst hi'
      simp [forUp, hb MAX_LEN (le_refl _) (le_refl _), a.wr_store (w MAX_LEN) (le_refl _),
        Except.bind]

theorem argRd_of_lt (p : List β) {i : Nat} (h : i < p.length) : argRd p i = .ok p[i] := by
  simp [argRd, h]

theorem toSizeT_of_lt {n : Int} (h0 : 0 ≤ n) (h1 : n < 2 ^ 64) : toSizeT n = n.toNat := by
  unfold toSizeT
  rw [Int.emod_eq_of_lt h0 h1]

variable {α : Type}

/-- The constructor with lengths in `0 .. MAX_LEN` and arrays that hold as
many entries (and `den[0]`): it succeeds, with the coefficient cells below
the lengths written and the others still indeterminate. -/
theorem construct_spec [Zero α] [One α] [Div α] (num den : List α) (nl dl : Int) (d0 : α)
    (hn0 : 0 ≤ nl) (hn : nl ≤ MAX_LEN) (hd0 : 0 ≤ dl) (hd : dl ≤ MAX_LEN)
    (hnum : nl ≤ num.length) (hden : dl ≤ den.length) (h0 : den[0]? = some d0) :
    ∃ nc dc, construct num den nl dl =
        .ok { mDenLen := dl, mNumLen := nl, mDenCoeffs := dc, mNumCoeffs := nc,
              mOutput := Arr.fill 0, mInput := Arr.fill 0, mGain := 1 / d0 } ∧
      (∀ j : Nat, nc.cells[j]? =
        if j < nl.toNat then some (num[j]?) else (Arr.fill none).cells[j]?) ∧
      (∀ j : Nat, dc.cells[j]? =
        if j < dl.toNat then some ((den[j]?).map (· / d0)) else (Arr.fill none).cells[j]?) := by
  have eN : toSizeT nl = nl.toNat := toSizeT_of_range hn0 hn
  have eD : toSizeT dl = dl.toNat := toSizeT_of_range hd0 hd
  have hn' : nl ≤ 10 := hn
  have hd' : dl ≤ 10 := hd
  have hpos : 0 < den.length := by
    rcases Nat.eq_zero_or_pos den.length with h | h
    · rw [List.length_eq_zero] at h; subst h; simp at h0
    · exact h
  have hr0 : argRd den 0 = .ok d0 := by simp [argRd, h0]
  obtain ⟨nc, hnc, hncrd⟩ := forUp_copy (numCopyBody num) (fun j => num[j]?) nl.toNat 0
    (Arr.fill none) (by simp; omega) (by
      intro j _ hj s
      have hlt : j < num.length := by omega
      simp [numCopyBody, argRd_of_lt num hlt, hlt, bind, Except.bind])
  obtain ⟨dc, hdc, hdcrd⟩ := forUp_copy (denCopyBody den) (fun j => (den[j]?).map (· / d0))
    dl.toNat 0 (Arr.fill none) (by simp; omega) (by
      intro j _ hj s
      have hlt : j < den.length := by omega
      simp [denCopyBody, argRd_of_lt den hlt, hr0, hlt, bind, Except.bind])
  refine ⟨nc, dc, ?_, fun j => ?_, fun j => ?_⟩
  · simp [construct, eN, eD, hnc, hdc, hr0, bind, Except.bind]
  · rw [hncrd j]; simp
  · rw [hdcrd j]; simp

end DigiSys

/-! ## Sequences of calls -/

namespace DigiSys

theorem past_succ_succ (s : List ℚ) (n i : Nat) : past s (n + 1) (i + 1) = past s n i := by
  unfold past
  by_cases h : i ≤ n
  · rw [if_pos h, if_pos (by omega)]
    have : n + 1 - (i + 1) = n - i := by omega
    rw [this]
  · rw [if_neg h, if_neg (by omega)]

theorem past_zero (s : List ℚ) (n : Nat) : past s n 0 = s.getD n 0 := by
  simp [past]

theorem past_append_lt (s t : List ℚ) (n i : Nat) (h : n < s.length) :
    past (s ++ t) n i = past s n i := by
  unfold past
  by_cases hi : i ≤ n
  · rw [if_pos hi, if_pos hi, List.getD_append s t 0 (n - i) (by omega)]
  · rw [if_neg hi, if_neg hi]

theorem past_append_pos (s t : List ℚ) (n i : Nat) (h : n ≤ s.length) (hi : 1 ≤ i) :
    past (s ++ t) n i = past s n i := by
  unfold past
  by_cases hin : i ≤ n
  · rw [if_pos hin, if_pos hin, List.getD_append s t 0 (n - i) (by omega)]
  · rw [if_neg hin, if_neg hin]

theorem getD_snoc_length (s : List ℚ) (x : ℚ) : (s ++ [x]).getD s.length 0 = x := by
  rw [List.getD_append_right s [x] 0 s.length (le_refl _)]
  simp

theorem run_cons_ok (f fa f1 : DigiSys ℚ) (a ya : ℚ) (xs ys : List ℚ)
    (h1 : f.update a = .ok (fa, ya)) (h2 : fa.run xs = .ok (f1, ys)) :
    f.run (a :: xs) = .ok (f1, ya :: ys) := by
  simp [run, h1, h2, bind, Except.bind]

/-- Running two sequences one after the other is running their
concatenation. -/
theorem run_append_ok (f f1 f2 : DigiSys ℚ) (xs zs ys ws : List ℚ)
    (h1 : f.run xs = .ok (f1, ys)) (h2 : f1.run zs = .ok (f2, ws)) :
    f.run (xs ++ zs) = .ok (f2, ys ++ ws) := by
  induction xs generalizing f ys with
  | nil =>
    simp [run] at h1
    obtain ⟨rfl, rfl⟩ := h1
    simpa using h2
  | cons a xs ih =>
    cases hu : f.update a with
    | error e => simp [run, hu, bind, Except.bind] at h1
    | ok r =>
      obtain ⟨fa, ya⟩ := r
      cases hr : fa.run xs with
      | error e => simp [run, hu, hr, bind, Except.bind] at h1
      | ok r2 =>
        obtain ⟨fb, yb⟩ := r2
        simp [run, hu, hr, bind, Except.bind] at h1
        obtain ⟨rfl, rfl⟩ := h1
        have := ih fa yb hr
        simpa using run_cons_ok f fa f2 a ya (xs ++ zs) (yb ++ ws) hu this

/-- Driving an object whose lengths are in range, whose coefficients are
written and whose histories are zero: every call succeeds, the histories
hold the most recent samples, and every returned value obeys the difference
equation. -/
theorem run_spec (f0 : DigiSys ℚ) (hl : f0.LensOk) (hc : f0.CoeffsInit)
    (hi : ∀ j, f0.mInput.val j = 0) (ho : ∀ j, f0.mOutput.val j = 0) (xs : List ℚ) :
    ∃ inp out ys, f0.run xs = .ok ({ f0 with mOutput := out, mInput := inp }, ys) ∧
      ys.length = xs.length ∧
      (∀ j, j < f0.mNumLen.toNat → inp.val j = past xs xs.length (j + 1)) ∧
      (∀ j, j < f0.mDenLen.toNat → out.val j = past ys xs.length (j + 1)) ∧
      (∀ n, n < xs.length → ys.getD n 0 =
        (∑ j ∈ Finset.range f0.mNumLen.toNat, f0.mNumCoeffs.coef j * past xs n j) * f0.mGain
          + ∑ j ∈ Finset.Ico 1 f0.mDenLen.toNat, -f0.mDenCoeffs.coef j * past ys n j) := by
  induction xs using List.reverseRecOn with
  | nil =>
    refine ⟨f0.mInput, f0.mOutput, [], rfl, rfl, fun j _ => ?_, fun j _ => ?_, fun n hn => ?_⟩
    · rw [hi j]; simp [past]
    · rw [ho j]; simp [past]
    · simp at hn
  | append_singleton xs x ih =>
    obtain ⟨inp, out, ys, hrun, hlen, hinp, hout, hform⟩ := ih
    obtain ⟨inp', out', hupd, hinp', hout', hy⟩ :=
      update_spec { f0 with mOutput := out, mInput := inp } x hl hc
    have hstep : ({ f0 with mOutput := out, mInput := inp } : DigiSys ℚ).run [x] =
        .ok ({ f0 with mOutput := out', mInput := inp' }, [out'.val 0]) :=
      run_cons_ok _ _ _ x (out'.val 0) [] [] hupd rfl
    have hin_val : ∀ j, j < f0.mNumLen.toNat → inp'.val j = past (xs ++ [x]) xs.length j := by
      intro j hj
      unfold Arr.val
      rw [hinp' j]
      by_cases h0 : j = 0
      · subst h0
        rw [if_pos rfl, past_zero, getD_snoc_length]; rfl
      · rw [if_neg h0, if_pos hj, past_append_pos xs [x] xs.length j (le_refl _) (by omega)]
        have := hinp (j - 1) (by omega)
        have e : j - 1 + 1 = j := by omega
        rw [e] at this
        exact this ▸ rfl
    have hout_val : ∀ j, 1 ≤ j → j < f0.mDenLen.toNat →
        out.val (j - 1) = past (ys ++ [out'.val 0]) xs.length j := by
      intro j hj1 hj
      rw [past_append_pos ys _ xs.length j (by omega) hj1]
      have := hout (j - 1) (by omega)
      have e : j - 1 + 1 = j := by omega
      rw [e] at this
      exact this
    have hlen' : (xs ++ [x]).length = xs.length + 1 := by simp
    refine ⟨inp', out', ys ++ [out'.val 0], run_append_ok _ _ _ xs [x] ys _ hrun hstep,
      by simp [hlen], fun j hj => ?_, fun j hj => ?_, fun n hn => ?_⟩
    · rw [hlen', past_succ_succ]
      exact hin_val j hj
    · rw [hlen', past_succ_succ]
      by_cases h0 : j = 0
      · subst h0
        rw [past_zero, ← hlen, getD_snoc_length]
      · rw [← hout_val j (by omega) hj]
        unfold Arr.val
        rw [hout' j h0, if_pos hj]
    · rw [hlen'] at hn
      by_cases hlt : n < xs.length
      · rw [List.getD_append ys _ 0 n (by omega), hform n hlt]
        congr 1
        · congr 1
          exact Finset.sum_congr rfl fun j _ => by rw [past_append_lt xs [x] n j hlt]
        · exact Finset.sum_congr rfl fun j _ => by
            rw [past_append_lt ys _ n j (by omega)]
      · have hn' : n = xs.length := by omega
        subst hn'
        rw [← hlen, getD_snoc_length, hlen]
        refine hy.trans ?_
        congr 1
        · congr 1
          exact Finset.sum_congr rfl fun j hj => by
            rw [hin_val j (by simpa using hj)]
        · exact Finset.sum_congr rfl fun j hj => by
            have hj' : 1 ≤ j ∧ j < f0.mDenLen.toNat := by simpa using hj
            show -f0.mDenCoeffs.coef j * out.val (j - 1) = _
            rw [hout_val j hj'.1 hj'.2]

end DigiSys

/-! ## Constructed objects -/

namespace DigiSys

variable {α : Type}

theorem constructGain_spec [Zero α] [One α] [Div α] [Mul α] (g : α) (num den : List α)
    (nl dl : Int) (f : DigiSys α) (h : construct num den nl dl = .ok f) :
    constructGain g num den nl dl = .ok { f with mGain := f.mGain * g } := by
  simp [constructGain, h, bind, Except.bind]

/-- An object the first constructor returns for lengths in `1 .. MAX_LEN`:
its lengths are in range, the coefficients `update` reads are written and
both histories are zero. -/
theorem construct_ready (num den : List ℚ) (nl dl : Int) (d0 : ℚ)
    (hn1 : 1 ≤ nl) (hn : nl ≤ MAX_LEN) (hd1 : 1 ≤ dl) (hd : dl ≤ MAX_LEN)
    (hnum : nl ≤ num.length) (hden : dl ≤ den.length) (h0 : den[0]? = some d0) :
    ∃ f0, construct num den nl dl = .ok f0 ∧ f0.mNumLen = nl ∧ f0.mDenLen = dl ∧
      f0.mGain = 1 / d0 ∧ f0.mInput = Arr.fill 0 ∧ f0.mOutput = Arr.fill 0 ∧
      f0.LensOk ∧ f0.CoeffsInit ∧
      (∀ j : Nat, j < nl.toNat → f0.mNumCoeffs.cells[j]? = some (num[j]?)) ∧
      (∀ j : Nat, j < dl.toNat → f0.mDenCoeffs.cells[j]? = some ((den[j]?).map (· / d0))) := by
  obtain ⟨nc, dc, hc, hnc, hdc⟩ :=
    construct_spec num den nl dl d0 (by omega) hn (by omega) hd hnum hden h0
  refine ⟨_, hc, rfl, rfl, rfl, rfl, rfl, ⟨hn1, hn, hd1, hd⟩, ⟨fun j hj => ?_, fun j _ hj => ?_⟩,
    fun j hj => ?_, fun j hj => ?_⟩
  · have hj' : j < nl.toNat := hj
    have hlt : j < num.length := by omega
    show ((nc.cells[j]?).join).isSome = true
    rw [hnc j, if_pos hj']; simp [hlt]
  · have hj' : j < dl.toNat := hj
    have hlt : j < den.length := by omega
    show ((dc.cells[j]?).join).isSome = true
    rw [hdc j, if_pos hj']; simp [hlt]
  · show nc.cells[j]? = _
    rw [hnc j, if_pos hj]
  · show dc.cells[j]? = _
    rw [hdc j, if_pos hj]

/-- With zero input an object with zero histories keeps zero histories and
returns zero, call after call. -/
theorem run_zero (f : DigiSys ℚ) (hl : f.LensOk) (hc : f.CoeffsInit)
    (hi : ∀ j, f.mInput.val j = 0) (ho : ∀ j, f.mOutput.val j = 0) (n : Nat) :
    ∃ inp out, f.run (List.replicate n 0) =
        .ok ({ f with mOutput := out, mInput := inp }, List.replicate n 0) ∧
      (∀ j, inp.val j = 0) ∧ (∀ j, out.val j = 0) := by
  induction n generalizing f with
  | zero => exact ⟨f.mInput, f.mOutput, rfl, hi, ho⟩
  | succ n ih =>
    obtain ⟨inp, out, hupd, hinp, hout, hy⟩ := update_spec f 0 hl hc
    have hinp0 : ∀ j, inp.val j = 0 := by
      intro j
      unfold Arr.val
      rw [hinp j]
      by_cases h0 : j = 0
      · rw [if_pos h0]; rfl
      · rw [if_neg h0]
        by_cases h : j < f.mNumLen.toNat
        · rw [if_pos h]; exact hi (j - 1)
        · rw [if_neg h]; exact hi j
    have hy0 : out.val 0 = 0 := by
      rw [hy]
      have h1 : ∀ j ∈ Finset.range f.mNumLen.toNat, f.mNumCoeffs.coef j * inp.val j = 0 :=
        fun j _ => by rw [hinp0 j, mul_zero]
      have h2 : ∀ j ∈ Finset.Ico 1 f.mDenLen.toNat,
          -f.mDenCoeffs.coef j * f.mOutput.val (j - 1) = 0 :=
        fun j _ => by rw [ho (j - 1), mul_zero]
      rw [Finset.sum_eq_zero h1, Finset.sum_eq_zero h2]; simp
    have hout0 : ∀ j, out.val j = 0 := by
      intro j
      by_cases h0 : j = 0
      · rw [h0]; exact hy0
      · unfold Arr.val
        rw [hout j h0]
        by_cases h : j < f.mDenLen.toNat
        · rw [if_pos h]; exact ho (j - 1)
        · rw [if_neg h]; exact ho j
    obtain ⟨inp2, out2, hrun, hi2, ho2⟩ :=
      ih { f with mOutput := out, mInput := inp } hl hc hinp0 hout0
    refine ⟨inp2, out2, ?_, hi2, ho2⟩
    rw [hy0] at hupd
    exact run_cons_ok f _ _ 0 0 (List.replicate n 0) (List.replicate n 0) hupd hrun

end DigiSys

/-! ## What a returned object tells about the construction -/

namespace DigiSys

variable {α β : Type}

theorem Arr.wr_ok_inv (a a' : Arr β) (i : Nat) (v : β) (h : a.wr i v = .ok a') :
    ∀ j : Nat, a'.cells[j]? = if j = i then some v else a.cells[j]? := by
  by_cases hi : i < MAX_LEN
  · obtain ⟨a1, h1, h1rd⟩ := a.wr_ok v hi
    rw [h1] at h
    cases h
    exact h1rd
  · rw [a.wr_store v (Nat.le_of_not_lt hi)] at h
    cases h

theorem denCopyBody_ok_inv [Div α] (den : List α) (i : Nat) (a a1 : Arr (Option α))
    (h : denCopyBody den i a = .ok a1) :
    ∃ v d, den[i]? = some v ∧ den[0]? = some d ∧ a.wr i (some (v / d)) = .ok a1 := by
  cases hv : den[i]? with
  | none => simp [denCopyBody, argRd, hv, bind, Except.bind] at h
  | some v =>
    cases hd : den[0]? with
    | none => simp [denCopyBody, argRd, hv, hd, bind, Except.bind] at h
    | some d =>
      refine ⟨v, d, rfl, rfl, ?_⟩
      simpa [denCopyBody, argRd, hv, hd, bind, Except.bind] using h

/-- The denominator copy loop leaves the cells below its start index as
they are. -/
theorem forUp_denCopyBody_below [Div α] (den : List α) (k i : Nat) (a a' : Arr (Option α))
    (h : forUp (denCopyBody den) k i a = .ok a') :
    ∀ j : Nat, j < i → a'.cells[j]? = a.cells[j]? := by
  induction k generalizing i a with
  | zero =>
    intro j _
    simp [forUp] at h
    rw [h]
  | succ k ih =>
    intro j hj
    cases hb : denCopyBody den i a with
    | error e => simp [forUp, hb, Except.bind] at h
    | ok a1 =>
      have h' : forUp (denCopyBody den) k (i + 1) a1 = .ok a' := by
        simpa [forUp, hb, Except.bind] using h
      obtain ⟨v, d, _, _, hw⟩ := denCopyBody_ok_inv den i a a1 hb
      rw [ih (i + 1) a1 h' j (by omega), Arr.wr_ok_inv a a1 i _ hw j, if_neg (by omega)]

theorem construct_ok_inv [Zero α] [One α] [Div α] (num den : List α) (nl dl : Int)
    (f : DigiSys α) (h : construct num den nl dl = .ok f) :
    ∃ nc dc d0, forUp (numCopyBody num) (toSizeT nl) 0 (Arr.fill none) = .ok nc ∧
      forUp (denCopyBody den) (toSizeT dl) 0 (Arr.fill none) = .ok dc ∧
      den[0]? = some d0 ∧
      f = { mDenLen := dl, mNumLen := nl, mDenCoeffs := dc, mNumCoeffs := nc,
            mOutput := Arr.fill 0, mInput := Arr.fill 0, mGain := 1 / d0 } := by
  cases h1 : forUp (numCopyBody num) (toSizeT nl) 0 (Arr.fill none) with
  | error e => simp [construct, h1, bind, Except.bind] at h
  | ok nc =>
    cases h2 : forUp (denCopyBody den) (toSizeT dl) 0 (Arr.fill none) with
    | error e => simp [construct, h1, h2, bind, Except.bind] at h
    | ok dc =>
      cases h3 : den[0]? with
      | none => simp [construct, h1, h2, argRd, h3, bind, Except.bind] at h
      | some d0 =>
        refine ⟨nc, dc, d0, rfl, rfl, rfl, ?_⟩
        simp [construct, h1, h2, argRd, h3, bind, Except.bind] at h
        exact h.symm

theorem constructGain_ok_inv [Zero α] [One α] [Div α] [Mul α] (g : α) (num den : List α)
    (nl dl : Int) (f : DigiSys α) (h : constructGain g num den nl dl = .ok f) :
    ∃ f1, construct num den nl dl = .ok f1 ∧ f = { f1 with mGain := f1.mGain * g } := by
  cases h1 : construct num den nl dl with
  | error e => simp [constructGain, h1, bind, Except.bind] at h
  | ok f1 =>
    refine ⟨f1, rfl, ?_⟩
    simp [constructGain, h1, bind, Except.bind] at h
    exact h.symm

/-- A returned object built with `den_len ≥ 1` and `den[0] ≠ 0` holds the
normalised `mDenCoeffs[0] = 1` and the gain `1 / den[0]`. -/
theorem construct_normalized (num den : List ℚ) (nl dl : Int) (d0 : ℚ) (f : DigiSys ℚ)
    (h0 : den[0]? = some d0) (hne : d0 ≠ 0) (hd1 : 1 ≤ dl) (hdi : dl ≤ INT_MAX)
    (h : construct num den nl dl = .ok f) :
    f.mDenCoeffs.rdInit 0 = .ok 1 ∧ f.mGain = 1 / d0 := by
  obtain ⟨nc, dc, d, _, hdc, hd, rfl⟩ := construct_ok_inv num den nl dl f h
  rw [h0] at hd
  cases hd
  have hk : toSizeT dl = (toSizeT dl - 1) + 1 := by
    have : toSizeT dl = dl.toNat :=
      toSizeT_of_lt (by omega) (by simp [INT_MAX] at hdi; omega)
    omega
  rw [hk] at hdc
  cases hb : denCopyBody den 0 (Arr.fill none) with
  | error e => simp [forUp, hb, Except.bind] at hdc
  | ok a1 =>
    have h' : forUp (denCopyBody den) (toSizeT dl - 1) 1 a1 = .ok dc := by
      simpa [forUp, hb, Except.bind] using hdc
    obtain ⟨v, d', hv, hd', hw⟩ := denCopyBody_ok_inv den 0 _ a1 hb
    rw [h0] at hv hd'
    cases hv
    cases hd'
    have hcell : dc.cells[0]? = some (some 1) := by
      rw [forUp_denCopyBody_below den _ 1 a1 dc h' 0 (by omega),
        Arr.wr_ok_inv _ a1 0 _ hw 0, if_pos rfl, div_self hne]
    exact ⟨Arr.rdInit_of_get _ hcell, rfl⟩

end DigiSys

/-! ## Filters without memory -/

namespace DigiSys

/-- With `mNumLen = mDenLen = 1` a call returns `mNumCoeffs[0] * input *
mGain`, whatever the histories hold. -/
theorem update_memoryless (f : DigiSys ℚ) (hn : f.mNumLen = 1) (hd : f.mDenLen = 1)
    (hc : f.CoeffsInit) (x : ℚ) :
    ∃ inp out, f.update x =
      .ok ({ f with mOutput := out, mInput := inp }, f.mNumCoeffs.coef 0 * x * f.mGain) := by
  have hl : f.LensOk := by
    refine ⟨?_, ?_, ?_, ?_⟩
    · rw [hn]
    · rw [hn]; decide
    · rw [hd]
    · rw [hd]; decide
  obtain ⟨inp, out, hupd, hinp, _, hy⟩ := update_spec f x hl hc
  have h0 : inp.val 0 = x := by simp [Arr.val, hinp 0]
  refine ⟨inp, out, ?_⟩
  rw [hupd, hy, hn, hd]
  simp [h0]

/-- With `mNumLen = mDenLen = 1` a sequence of calls returns every input
scaled by `mNumCoeffs[0] * mGain`. -/
theorem run_memoryless (f : DigiSys ℚ) (hn : f.mNumLen = 1) (hd : f.mDenLen = 1)
    (hc : f.CoeffsInit) (xs : List ℚ) :
    ∃ inp out, f.run xs =
      .ok ({ f with mOutput := out, mInput := inp },
        xs.map fun x => f.mNumCoeffs.coef 0 * x * f.mGain) := by
  induction xs generalizing f with
  | nil => exact ⟨f.mInput, f.mOutput, rfl⟩
  | cons x xs ih =>
    obtain ⟨inp, out, hupd⟩ := update_memoryless f hn hd hc x
    obtain ⟨inp2, out2, hrun⟩ := ih { f with mOutput := out, mInput := inp } hn hd hc
    exact ⟨inp2, out2, run_cons_ok f _ _ x _ xs _ hupd hrun⟩

end DigiSys

/-! ## One call, cell by cell -/

namespace DigiSys

/-- One `update` call in terms of the values held before it: the returned
value, and the cells of both histories below the lengths. -/
theorem update_vals (f : DigiSys ℚ) (x : ℚ) (hl : f.LensOk) (hc : f.CoeffsInit) :
    ∃ inp out, f.update x = .ok ({ f with mOutput := out, mInput := inp }, out.val 0) ∧
      inp.val 0 = x ∧
      (∀ j, 1 ≤ j → j < f.mNumLen.toNat → inp.val j = f.mInput.val (j - 1)) ∧
      (∀ j, f.mNumLen.toNat ≤ j → inp.cells[j]? = f.mInput.cells[j]?) ∧
      (∀ j, 1 ≤ j → j < f.mDenLen.toNat → out.val j = f.mOutput.val (j - 1)) ∧
      (∀ j, f.mDenLen.toNat ≤ j → out.cells[j]? = f.mOutput.cells[j]?) ∧
      out.val 0 = f.mGain * (f.mNumCoeffs.coef 0 * x
          + ∑ j ∈ Finset.Ico 1 f.mNumLen.toNat, f.mNumCoeffs.coef j * f.mInput.val (j - 1))
        - ∑ j ∈ Finset.Ico 1 f.mDenLen.toNat, f.mDenCoeffs.coef j * f.mOutput.val (j - 1) := by
  obtain ⟨inp, out, hupd, hinp, hout, hy⟩ := update_spec f x hl hc
  obtain ⟨hn1, hn2, hd1, hd2⟩ := hl
  have pN : 1 ≤ f.mNumLen.toNat := by omega
  have pD : 1 ≤ f.mDenLen.toNat := by omega
  have h0 : inp.val 0 = x := by simp [Arr.val, hinp 0]
  have hj : ∀ j, 1 ≤ j → j < f.mNumLen.toNat → inp.val j = f.mInput.val (j - 1) := by
    intro j h1 h2
    unfold Arr.val
    rw [hinp j, if_neg (by omega), if_pos h2]
  refine ⟨inp, out, hupd, h0, hj, fun j h => ?_, fun j h1 h2 => ?_, fun j h => ?_, ?_⟩
  · rw [hinp j, if_neg (by omega), if_neg (by omega)]
  · unfold Arr.val
    rw [hout j (by omega), if_pos h2]
  · rw [hout j (by omega), if_neg (by omega)]
  · rw [hy, Finset.range_eq_Ico, Finset.sum_eq_sum_Ico_succ_bot (by omega : 0 < f.mNumLen.toNat),
      h0]
    have e : ∑ j ∈ Finset.Ico (0 + 1) f.mNumLen.toNat, f.mNumCoeffs.coef j * inp.val j =
        ∑ j ∈ Finset.Ico 1 f.mNumLen.toNat, f.mNumCoeffs.coef j * f.mInput.val (j - 1) :=
      Finset.sum_congr rfl fun j hj' => by
        have hj2 : 1 ≤ j ∧ j < f.mNumLen.toNat := by simpa using hj'
        rw [hj j hj2.1 hj2.2]
    rw [e]
    simp only [neg_mul, Finset.sum_neg_distrib]
    ring

end DigiSys

namespace DigiSys

theorem exampleState_lensOk : exampleState.LensOk := by
  unfold LensOk exampleState
  decide

theorem exampleState_coeffsInit : exampleState.CoeffsInit := by
  refine ⟨fun j hj => ?_, fun j h1 hj => ?_⟩
  · have hj' : j < 3 := hj
    have : j = 0 ∨ j = 1 ∨ j = 2 := by omega
    rcases this with rfl | rfl | rfl <;> rfl
  · have hj' : j < 2 := hj
    have : j = 1 := by omega
    subst this
    rfl

end DigiSys

/-! ## Freshly constructed objects -/

namespace DigiSys

/-- Both constructors at lengths in `1 .. MAX_LEN`: the objects they return
differ in the gain only, have their lengths in range, the coefficients
written (`numCoeffs[j] = num[j]`, `denCoeffs[j] = den[j] / den[0]`) and zero
histories. -/
theorem construct_both (g : ℚ) (num den : List ℚ) (nl dl : Int) (d0 : ℚ)
    (hn1 : 1 ≤ nl) (hn : nl ≤ MAX_LEN) (hd1 : 1 ≤ dl) (hd : dl ≤ MAX_LEN)
    (hnum : nl ≤ num.length) (hden : dl ≤ den.length) (h0 : den[0]? = some d0) :
    ∃ fa : DigiSys ℚ, construct num den nl dl = .ok fa ∧
      constructGain g num den nl dl = .ok { fa with mGain := fa.mGain * g } ∧
      fa.mNumLen = nl ∧ fa.mDenLen = dl ∧ fa.mGain = 1 / d0 ∧
      fa.mInput = Arr.fill 0 ∧ fa.mOutput = Arr.fill 0 ∧ fa.LensOk ∧ fa.CoeffsInit ∧
      (∀ j : Nat, j < nl.toNat → fa.mNumCoeffs.coef j = num.getD j 0) ∧
      (∀ j : Nat, j < dl.toNat → fa.mDenCoeffs.coef j = den.getD j 0 / d0) := by
  obtain ⟨fa, hfa, hnl, hdl, hg, hin, hout, hl, hc, hnc, hdc⟩ :=
    construct_ready num den nl dl d0 hn1 hn hd1 hd hnum hden h0
  refine ⟨fa, hfa, constructGain_spec g num den nl dl fa hfa, hnl, hdl, hg, hin, hout, hl, hc,
    fun j hj => ?_, fun j hj => ?_⟩
  · have hlt : j < num.length := by omega
    simp [Arr.coef, hnc j hj, hlt]
  · have hlt : j < den.length := by omega
    simp [Arr.coef, hdc j hj, hlt]

/-- A run from zero histories, in the form the claims use: it returns, and
the histories and the returned values are as `run_spec` says, with the
difference equation written with a subtraction. -/
theorem run_fresh (f0 : DigiSys ℚ) (hl : f0.LensOk) (hc : f0.CoeffsInit)
    (hi : f0.mInput = Arr.fill 0) (ho : f0.mOutput = Arr.fill 0) (xs : List ℚ) :
    ∃ f1 ys, f0.run xs = .ok (f1, ys) ∧ ys.length = xs.length ∧
      (∀ j, j < f0.mNumLen.toNat → f1.mInput.val j = past xs xs.length (j + 1)) ∧
      (∀ j, j < f0.mDenLen.toNat → f1.mOutput.val j = past ys xs.length (j + 1)) ∧
      (∀ n, n < xs.length → ys.getD n 0 =
        (∑ j ∈ Finset.range f0.mNumLen.toNat, f0.mNumCoeffs.coef j * past xs n j) * f0.mGain
          + ∑ j ∈ Finset.Ico 1 f0.mDenLen.toNat, -f0.mDenCoeffs.coef j * past ys n j) := by
  obtain ⟨inp, out, ys, hrun, hlen, hinp, hout, hform⟩ := run_spec f0 hl hc
    (fun j => by rw [hi]; exact Arr.val_fill j) (fun j => by rw [ho]; exact Arr.val_fill j) xs
  exact ⟨_, ys, hrun, hlen, hinp, hout, hform⟩

end DigiSys

/-! ## Comparing runs -/

namespace DigiSys

theorem list_ext_getD (l1 l2 : List ℚ) (hlen : l1.length = l2.length)
    (h : ∀ n, n < l1.length → l1.getD n 0 = l2.getD n 0) : l1 = l2 := by
  apply List.ext_getElem hlen
  intro n h1 h2
  have := h n h1
  rwa [List.getD_eq_getElem l1 0 h1, List.getD_eq_getElem l2 0 h2] at this

theorem getD_zipWith_lin (a b : ℚ) (u v : List ℚ) (hlen : u.length = v.length) (m : Nat) :
    (List.zipWith (fun p q => a * p + b * q) u v).getD m 0 =
      a * u.getD m 0 + b * v.getD m 0 := by
  simp only [List.getD_eq_getElem?_getD, List.getElem?_zipWith]
  by_cases hm : m < u.length
  · have hm' : m < v.length := by omega
    simp [List.getElem?_eq_getElem hm, List.getElem?_eq_getElem hm']
  · have h1 : u[m]? = none := List.getElem?_eq_none (by omega)
    have h2 : v[m]? = none := List.getElem?_eq_none (by omega)
    simp [h1, h2]

theorem past_zipWith_lin (a b : ℚ) (u v : List ℚ) (hlen : u.length = v.length) (n i : Nat) :
    past (List.zipWith (fun p q => a * p + b * q) u v) n i =
      a * past u n i + b * past v n i := by
  unfold past
  by_cases h : i ≤ n
  · rw [if_pos h, if_pos h, if_pos h, getD_zipWith_lin a b u v hlen]
  · rw [if_neg h, if_neg h, if_neg h]; ring

/-- Three sequences that obey the same feedback recurrence, the forcing term
of the first being a linear combination of those of the other two: the first
sequence is that linear combination of the other two. -/
theorem recurrence_linear (D : Nat) (e : Nat → ℚ) (a b : ℚ) (ws us vs : List ℚ)
    (Aw Au Av : Nat → ℚ) (L : Nat)
    (hw : ∀ n, n < L → ws.getD n 0 = Aw n + ∑ j ∈ Finset.Ico 1 D, e j * past ws n j)
    (hu : ∀ n, n < L → us.getD n 0 = Au n + ∑ j ∈ Finset.Ico 1 D, e j * past us n j)
    (hv : ∀ n, n < L → vs.getD n 0 = Av n + ∑ j ∈ Finset.Ico 1 D, e j * past vs n j)
    (hA : ∀ n, n < L → Aw n = a * Au n + b * Av n) :
    ∀ n, n < L → ws.getD n 0 = a * us.getD n 0 + b * vs.getD n 0 := by
  intro n
  induction n using Nat.strong_induction_on with
  | _ n ih =>
    intro hn
    have hp : ∀ j ∈ Finset.Ico 1 D, e j * past ws n j =
        a * (e j * past us n j) + b * (e j * past vs n j) := by
      intro j hj
      have hj1 : 1 ≤ j := (Finset.mem_Ico.mp hj).1
      unfold past
      by_cases h : j ≤ n
      · rw [if_pos h, if_pos h, if_pos h, ih (n - j) (by omega) (by omega)]; ring
      · rw [if_neg h, if_neg h, if_neg h]; ring
    rw [hw n hn, hu n hn, hv n hn, hA n hn, Finset.sum_congr rfl hp, Finset.sum_add_distrib,
      ← Finset.mul_sum, ← Finset.mul_sum]
    ring

/-- With zero histories, a call `update(0)` returns 0 and leaves the object
as it was. -/
theorem update_zero_fresh (f : DigiSys ℚ) (hl : f.LensOk) (hc : f.CoeffsInit)
    (hi : f.mInput = Arr.fill 0) (ho : f.mOutput = Arr.fill 0) :
    f.update 0 = .ok (f, 0) := by
  obtain ⟨inp, out, hrun, hi0, ho0⟩ := run_zero f hl hc
    (fun j => by rw [hi]; exact Arr.val_fill j) (fun j => by rw [ho]; exact Arr.val_fill j) 1
  have hz : ∀ a : Arr ℚ, (∀ j, a.val j = 0) → a = Arr.fill 0 := by
    intro a ha
    apply Arr.ext_get
    intro j
    by_cases hj : j < MAX_LEN
    · rw [a.get_eq_val hj, ha j, Arr.get_fill 0 hj]
    · rw [a.get_none (Nat.le_of_not_lt hj), Arr.get_none _ (Nat.le_of_not_lt hj)]
  have e1 : inp = f.mInput := by rw [hi]; exact hz inp hi0
  have e2 : out = f.mOutput := by rw [ho]; exact hz out ho0
  subst e1
  subst e2
  cases hu : f.update 0 with
  | error e => simp [run, hu, bind, Except.bind] at hrun
  | ok r =>
    obtain ⟨f1, y⟩ := r
    simp [run, hu, bind, Except.bind] at hrun
    obtain ⟨h1, h2⟩ := hrun
    rw [h1, h2]

end DigiSys

namespace DigiSys

/-- A run from zero histories, with the difference equation written with the
constructor's arguments instead of the stored coefficients. -/
theorem run_canonical (f0 : DigiSys ℚ) (num den : List ℚ) (nl dl : Int) (d0 : ℚ)
    (e1 : f0.mNumLen = nl) (e2 : f0.mDenLen = dl) (hl : f0.LensOk) (hc : f0.CoeffsInit)
    (hi : f0.mInput = Arr.fill 0) (ho : f0.mOutput = Arr.fill 0)
    (hnc : ∀ j : Nat, j < nl.toNat → f0.mNumCoeffs.coef j = num.getD j 0)
    (hdc : ∀ j : Nat, j < dl.toNat → f0.mDenCoeffs.coef j = den.getD j 0 / d0)
    (xs : List ℚ) :
    ∃ f1 ys, f0.run xs = .ok (f1, ys) ∧ ys.length = xs.length ∧
      ∀ n, n < xs.length → ys.getD n 0 =
        (∑ j ∈ Finset.range nl.toNat, num.getD j 0 * past xs n j) * f0.mGain
          + ∑ j ∈ Finset.Ico 1 dl.toNat, -(den.getD j 0 / d0) * past ys n j := by
  obtain ⟨f1, ys, hrun, hlen, _, _, hform⟩ := run_fresh f0 hl hc hi ho xs
  refine ⟨f1, ys, hrun, hlen, fun n hn => ?_⟩
  rw [hform n hn, e1, e2]
  congr 1
  · congr 1
    exact Finset.sum_congr rfl fun j hj => by rw [hnc j (by simpa using hj)]
  · exact Finset.sum_congr rfl fun j hj => by
      rw [hdc j (Finset.mem_Ico.mp hj).2]

end DigiSys

/-! ## Filters without feedback, and one with -/

namespace DigiSys

/-- With `mDenLen = 1` the value returned by call `n` of a run from zero
histories is the gain times the numerator sum over the last `mNumLen`
inputs. -/
theorem run_fir (f0 : DigiSys ℚ) (hl : f0.LensOk) (hc : f0.CoeffsInit)
    (hi : f0.mInput = Arr.fill 0) (ho : f0.mOutput = Arr.fill 0) (hd : f0.mDenLen = 1)
    (xs : List ℚ) :
    ∃ f1 ys, f0.run xs = .ok (f1, ys) ∧ ys.length = xs.length ∧
      (∀ j, j < f0.mNumLen.toNat → f1.mInput.val j = past xs xs.length (j + 1)) ∧
      ∀ n, n < xs.length → ys.getD n 0 =
        (∑ j ∈ Finset.range f0.mNumLen.toNat, f0.mNumCoeffs.coef j * past xs n j) * f0.mGain := by
  obtain ⟨f1, ys, hrun, hlen, hinp, _, hform⟩ := run_fresh f0 hl hc hi ho xs
  refine ⟨f1, ys, hrun, hlen, hinp, fun n hn => ?_⟩
  rw [hform n hn, hd]
  simp

/-- The filter `num = [1]`, `den = [1, -1/2]` on two inputs `p`, `q`: it
returns `p` and then `q + p / 2`. -/
theorem run_half_two (p q : ℚ) :
    ∃ f0 f1, construct ([1] : List ℚ) [1, -1 / 2] 1 2 = .ok f0 ∧
      f0.run [p, q] = .ok (f1, [p, q + p / 2]) := by
  obtain ⟨f0, hf0, _, hnl, hdl, hg, hin, hout, hl, hc, hnc, hdc⟩ :=
    construct_both 1 ([1] : List ℚ) [1, -1 / 2] 1 2 1 (by decide) (by decide) (by decide)
      (by decide) (by decide) (by decide) rfl
  obtain ⟨f1, ys, hrun, hlen, hrec⟩ :=
    run_canonical f0 [1] [1, -1 / 2] 1 2 1 hnl hdl hl hc hin hout hnc hdc [p, q]
  refine ⟨f0, f1, hf0, ?_⟩
  rw [hrun]
  match ys, hlen, hrec with
  | [a, b], _, hrec =>
    have h0 := hrec 0 (by simp)
    have h1 := hrec 1 (by simp)
    simp [past, hg] at h0 h1
    subst h0
    have e : b = q + a / 2 := by rw [h1]; ring
    rw [e]

end DigiSys

/-! ## The claims -/

namespace DigiSys

/-- C1: a filter built by either constructor with `1 ≤ numLen, denLen ≤
MAX_LEN` and `den[0] ≠ 0` is constructed, every sequence of `update` calls
from its fresh state returns, and the `n`-th returned value is
`gain * Σ_{i < numLen} numCoeffs[i] * x[n-i] - Σ_{1 ≤ i < denLen}
denCoeffs[i] * y[n-i]` with the stored gain and coefficients, samples before
the first call being zero. -/
theorem C1_difference_equation (g : ℚ) (num den : List ℚ) (nl dl : Int) (d0 : ℚ)
    (hn1 : 1 ≤ nl) (hn : nl ≤ MAX_LEN) (hd1 : 1 ≤ dl) (hd : dl ≤ MAX_LEN)
    (hnum : nl ≤ num.length) (hden : dl ≤ den.length)
    (h0 : den[0]? = some d0) (_hne : d0 ≠ 0) :
    ∃ fa fb, construct num den nl dl = .ok fa ∧ constructGain g num den nl dl = .ok fb ∧
      ∀ f0, f0 = fa ∨ f0 = fb → ∀ xs : List ℚ, ∃ f1 ys,
        f0.run xs = .ok (f1, ys) ∧ ys.length = xs.length ∧
        ∀ n, n < xs.length → ys.getD n 0 =
          f0.mGain * ∑ i ∈ Finset.range nl.toNat, f0.mNumCoeffs.coef i * past xs n i
            - ∑ i ∈ Finset.Ico 1 dl.toNat, f0.mDenCoeffs.coef i * past ys n i := by
  obtain ⟨fa, hfa, hnl, hdl, _, hin, hout, hl, hc, _, _⟩ :=
    construct_ready num den nl dl d0 hn1 hn hd1 hd hnum hden h0
  refine ⟨fa, _, hfa, constructGain_spec g num den nl dl fa hfa, ?_⟩
  have key : ∀ f0 : DigiSys ℚ, f0.mNumLen = nl → f0.mDenLen = dl → f0.LensOk → f0.CoeffsInit →
      f0.mInput = Arr.fill 0 → f0.mOutput = Arr.fill 0 → ∀ xs : List ℚ, ∃ f1 ys,
        f0.run xs = .ok (f1, ys) ∧ ys.length = xs.length ∧
        ∀ n, n < xs.length → ys.getD n 0 =
          f0.mGain * ∑ i ∈ Finset.range nl.toNat, f0.mNumCoeffs.coef i * past xs n i
            - ∑ i ∈ Finset.Ico 1 dl.toNat, f0.mDenCoeffs.coef i * past ys n i := by
    intro f0 e1 e2 hl0 hc0 hi0 ho0 xs
    obtain ⟨inp, out, ys, hrun, hlen, _, _, hform⟩ := run_spec f0 hl0 hc0
      (fun j => by rw [hi0]; exact Arr.val_fill j) (fun j => by rw [ho0]; exact Arr.val_fill j) xs
    refine ⟨_, ys, hrun, hlen, fun n hn' => ?_⟩
    rw [hform n hn', e1, e2]
    simp only [neg_mul, Finset.sum_neg_distrib]
    ring
  rintro f0 (rfl | rfl)
  · exact key f0 hnl hdl hl hc hin hout
  · exact key _ hnl hdl hl hc hin hout

/-- C1 at `gain = 3`, `num = [1, 2]`, `den = [2, 1]`. -/
theorem C1_difference_equation_witness :
    ∃ fa fb, construct ([1, 2] : List ℚ) [2, 1] 2 2 = .ok fa ∧
      constructGain (3 : ℚ) [1, 2] [2, 1] 2 2 = .ok fb ∧
      ∀ f0, f0 = fa ∨ f0 = fb → ∀ xs : List ℚ, ∃ f1 ys,
        f0.run xs = .ok (f1, ys) ∧ ys.length = xs.length ∧
        ∀ n, n < xs.length → ys.getD n 0 =
          f0.mGain * ∑ i ∈ Finset.range (2 : Int).toNat, f0.mNumCoeffs.coef i * past xs n i
            - ∑ i ∈ Finset.Ico 1 (2 : Int).toNat, f0.mDenCoeffs.coef i * past ys n i :=
  C1_difference_equation 3 [1, 2] [2, 1] 2 2 2 (by decide) (by decide) (by decide) (by decide)
    (by decide) (by decide) rfl (by norm_num)


/-- C2: every object either constructor returns for `den[0] ≠ 0` and
`denLen ≥ 1` stores `denCoeffs[0] = 1` and the gain `extraGain / den[0]`,
`extraGain` being 1 for the constructor without a gain argument; and both
constructors do return an object when the lengths are within `MAX_LEN` and
the arrays hold as many entries. -/
theorem C2_normalization (g : ℚ) (num den : List ℚ) (nl dl : Int) (d0 : ℚ)
    (h0 : den[0]? = some d0) (hne : d0 ≠ 0) (hd1 : 1 ≤ dl) (hdi : dl ≤ INT_MAX) :
    (∀ f, construct num den nl dl = .ok f →
      f.mDenCoeffs.rdInit 0 = .ok 1 ∧ f.mGain = 1 / d0) ∧
    (∀ f, constructGain g num den nl dl = .ok f →
      f.mDenCoeffs.rdInit 0 = .ok 1 ∧ f.mGain = g / d0) ∧
    (0 ≤ nl → nl ≤ MAX_LEN → dl ≤ MAX_LEN → nl ≤ num.length → dl ≤ den.length →
      ∃ fa fb, construct num den nl dl = .ok fa ∧ constructGain g num den nl dl = .ok fb) := by
  refine ⟨fun f hf => construct_normalized num den nl dl d0 f h0 hne hd1 hdi hf,
    fun f hf => ?_, fun hn0 hn hd hnum hden => ?_⟩
  · obtain ⟨f1, hf1, rfl⟩ := constructGain_ok_inv g num den nl dl f hf
    obtain ⟨hc, hg⟩ := construct_normalized num den nl dl d0 f1 h0 hne hd1 hdi hf1
    refine ⟨hc, ?_⟩
    show f1.mGain * g = g / d0
    rw [hg]; ring
  · obtain ⟨nc, dc, hc, _, _⟩ :=
      construct_spec num den nl dl d0 hn0 hn (by omega) hd hnum hden h0
    exact ⟨_, _, hc, constructGain_spec g num den nl dl _ hc⟩

/-- C2 at `gain = 3`, `num = [1, 2]`, `den = [2, 1]`. -/
theorem C2_normalization_witness :
    (∀ f, construct ([1, 2] : List ℚ) [2, 1] 2 2 = .ok f →
      f.mDenCoeffs.rdInit 0 = .ok 1 ∧ f.mGain = 1 / (2 : ℚ)) ∧
    (∀ f, constructGain (3 : ℚ) [1, 2] [2, 1] 2 2 = .ok f →
      f.mDenCoeffs.rdInit 0 = .ok 1 ∧ f.mGain = 3 / (2 : ℚ)) ∧
    ∃ fa fb, construct ([1, 2] : List ℚ) [2, 1] 2 2 = .ok fa ∧
      constructGain (3 : ℚ) [1, 2] [2, 1] 2 2 = .ok fb :=
  have h := C2_normalization 3 [1, 2] [2, 1] 2 2 2 rfl (by norm_num) (by decide) (by decide)
  ⟨h.1, h.2.1, h.2.2 (by decide) (by decide) (by decide) (by decide) (by decide)⟩

/-- C3: a construction with `1 ≤ numLen, denLen ≤ MAX_LEN` and `den[0] ≠ 0`
returns an object with `numCoeffs[i] = num[i]` for `i < numLen`,
`denCoeffs[i] = den[i] / den[0]` for `i < denLen`, and every entry of both
histories equal to 0; the gain overload stores the same coefficients and
histories. -/
theorem C3_construction (g : ℚ) (num den : List ℚ) (nl dl : Int) (d0 : ℚ)
    (hn1 : 1 ≤ nl) (hn : nl ≤ MAX_LEN) (hd1 : 1 ≤ dl) (hd : dl ≤ MAX_LEN)
    (hnum : nl ≤ num.length) (hden : dl ≤ den.length)
    (h0 : den[0]? = some d0) (_hne : d0 ≠ 0) :
    ∃ fa fb, construct num den nl dl = .ok fa ∧ constructGain g num den nl dl = .ok fb ∧
      ∀ f0, f0 = fa ∨ f0 = fb →
        (∀ (i : Nat) (hi : i < num.length), (i : Int) < nl →
          f0.mNumCoeffs.rdInit i = .ok num[i]) ∧
        (∀ (i : Nat) (hi : i < den.length), (i : Int) < dl →
          f0.mDenCoeffs.rdInit i = .ok (den[i] / d0)) ∧
        (∀ i : Nat, i < MAX_LEN → f0.mInput.rd i = .ok 0 ∧ f0.mOutput.rd i = .ok 0) := by
  obtain ⟨fa, hfa, _, _, _, hin, hout, _, _, hnc, hdc⟩ :=
    construct_ready num den nl dl d0 hn1 hn hd1 hd hnum hden h0
  refine ⟨fa, _, hfa, constructGain_spec g num den nl dl fa hfa, ?_⟩
  have key : ∀ f0 : DigiSys ℚ, f0.mNumCoeffs = fa.mNumCoeffs → f0.mDenCoeffs = fa.mDenCoeffs →
      f0.mInput = fa.mInput → f0.mOutput = fa.mOutput →
      (∀ (i : Nat) (hi : i < num.length), (i : Int) < nl →
          f0.mNumCoeffs.rdInit i = .ok num[i]) ∧
        (∀ (i : Nat) (hi : i < den.length), (i : Int) < dl →
          f0.mDenCoeffs.rdInit i = .ok (den[i] / d0)) ∧
        (∀ i : Nat, i < MAX_LEN → f0.mInput.rd i = .ok 0 ∧ f0.mOutput.rd i = .ok 0) := by
    intro f0 e1 e2 e3 e4
    rw [e1, e2, e3, e4, hin, hout]
    refine ⟨fun i hi hlt => ?_, fun i hi hlt => ?_, fun i hi => ?_⟩
    · apply Arr.rdInit_of_get
      rw [hnc i (by omega)]; simp [hi]
    · apply Arr.rdInit_of_get
      rw [hdc i (by omega)]; simp [hi]
    · exact ⟨Arr.rd_of_get _ (Arr.get_fill 0 hi), Arr.rd_of_get _ (Arr.get_fill 0 hi)⟩
  rintro f0 (rfl | rfl)
  · exact key f0 rfl rfl rfl rfl
  · exact key _ rfl rfl rfl rfl

/-- C3 at `gain = 3`, `num = [1, 2]`, `den = [2, 1]`. -/
theorem C3_construction_witness :
    ∃ fa fb, construct ([1, 2] : List ℚ) [2, 1] 2 2 = .ok fa ∧
      constructGain (3 : ℚ) [1, 2] [2, 1] 2 2 = .ok fb ∧
      ∀ f0, f0 = fa ∨ f0 = fb →
        (∀ (i : Nat) (hi : i < ([1, 2] : List ℚ).length), (i : Int) < 2 →
          f0.mNumCoeffs.rdInit i = .ok ([1, 2] : List ℚ)[i]) ∧
        (∀ (i : Nat) (hi : i < ([2, 1] : List ℚ).length), (i : Int) < 2 →
          f0.mDenCoeffs.rdInit i = .ok (([2, 1] : List ℚ)[i] / 2)) ∧
        (∀ i : Nat, i < MAX_LEN → f0.mInput.rd i = .ok 0 ∧ f0.mOutput.rd i = .ok 0) :=
  C3_construction 3 [1, 2] [2, 1] 2 2 2 (by decide) (by decide) (by decide) (by decide)
    (by decide) (by decide) rfl (by norm_num)


/-- C4, as stated, fails: with `den = [0]` the constructor returns an object
(no error is raised); its `denCoeffs[0]` and gain are the non-finite results
of dividing by zero, and `update` runs on it, returning a non-finite value. -/
theorem C4_counterexample :
    construct ([.fin 1] : List Dbl) [.fin 0] 1 1 =
      .ok { mDenLen := 1, mNumLen := 1,
            mDenCoeffs :=
              ⟨[some .nonfin, none, none, none, none, none, none, none, none, none], rfl⟩,
            mNumCoeffs :=
              ⟨[some (.fin 1), none, none, none, none, none, none, none, none, none], rfl⟩,
            mOutput := Arr.fill 0, mInput := Arr.fill 0, mGain := .nonfin } ∧
    ((construct ([.fin 1] : List Dbl) [.fin 0] 1 1).bind fun f => f.update (.fin 1)).map Prod.snd =
      .ok .nonfin :=
  ⟨rfl, rfl⟩

/-- C4, amended: with `den[0] = 0` neither constructor fails.  For lengths
within `0 .. MAX_LEN` and finite `num`, `den` holding as many entries, both
return an object; its stored gain and its `denCoeffs[i]`, `i < denLen`, are
the non-finite results of the division by zero. -/
theorem C4_zero_den_constructs (g : ℚ) (num den : List ℚ) (nl dl : Int)
    (hn0 : 0 ≤ nl) (hn : nl ≤ MAX_LEN) (hd0 : 0 ≤ dl) (hd : dl ≤ MAX_LEN)
    (hnum : nl ≤ num.length) (hden : dl ≤ den.length) (h0 : den[0]? = some 0) :
    ∃ fa fb, construct (num.map Dbl.fin) (den.map Dbl.fin) nl dl = .ok fa ∧
      constructGain (Dbl.fin g) (num.map Dbl.fin) (den.map Dbl.fin) nl dl = .ok fb ∧
      fa.mGain = .nonfin ∧ fb.mGain = .nonfin ∧
      ∀ f0, f0 = fa ∨ f0 = fb → ∀ i : Nat, (i : Int) < dl →
        f0.mDenCoeffs.rdInit i = .ok .nonfin := by
  have h0' : (den.map Dbl.fin)[0]? = some (Dbl.fin 0) := by simp [h0]
  have hdiv : ∀ p : ℚ, Dbl.fin p / Dbl.fin 0 = Dbl.nonfin := fun p => rfl
  obtain ⟨nc, dc, hc, _, hdc⟩ := construct_spec (num.map Dbl.fin) (den.map Dbl.fin) nl dl
    (Dbl.fin 0) hn0 hn hd0 hd (by simpa using hnum) (by simpa using hden) h0'
  refine ⟨_, _, hc, constructGain_spec _ _ _ nl dl _ hc, rfl, rfl, ?_⟩
  have key : ∀ i : Nat, (i : Int) < dl → dc.rdInit i = .ok .nonfin := by
    intro i hi
    have hlt : i < den.length := by omega
    apply Arr.rdInit_of_get
    rw [hdc i, if_pos (by omega)]
    simp [hlt, hdiv]
  rintro f0 (rfl | rfl)
  · exact key
  · exact key

/-- C4 amended, at `gain = 3`, `num = [1, 2]`, `den = [0, 1]`. -/
theorem C4_zero_den_constructs_witness :
    ∃ fa fb, construct (([1, 2] : List ℚ).map Dbl.fin) (([0, 1] : List ℚ).map Dbl.fin) 2 2
        = .ok fa ∧
      constructGain (Dbl.fin 3) (([1, 2] : List ℚ).map Dbl.fin)
        (([0, 1] : List ℚ).map Dbl.fin) 2 2 = .ok fb ∧
      fa.mGain = .nonfin ∧ fb.mGain = .nonfin ∧
      ∀ f0, f0 = fa ∨ f0 = fb → ∀ i : Nat, (i : Int) < 2 →
        f0.mDenCoeffs.rdInit i = .ok .nonfin :=
  C4_zero_den_constructs 3 [1, 2] [0, 1] 2 2 (by decide) (by decide) (by decide) (by decide)
    (by decide) (by decide) rfl

/-- C5, as stated, fails: with `numLen = 11` the constructor is not stopped
by a capacity check; its copy loop reaches `mNumCoeffs[10] = num[10]`, the
store outside the array. -/
theorem C5_counterexample :
    construct (List.replicate 11 (1 : ℚ)) [1] 11 1 = .error (.store 10) ∧
    constructGain 2 (List.replicate 11 (1 : ℚ)) [1] 11 1 = .error (.store 10) :=
  ⟨rfl, rfl⟩

/-- C5, amended: with `numLen > MAX_LEN` or `denLen > MAX_LEN` (and `num`,
`den` holding as many entries) neither constructor checks the lengths; the
copy loop runs up to index `MAX_LEN` and stores outside the coefficient
array. -/
theorem C5_no_capacity_check (g : ℚ) (num den : List ℚ) (nl dl : Int)
    (hn0 : 0 ≤ nl) (hni : nl ≤ INT_MAX) (hd0 : 0 ≤ dl) (hdi : dl ≤ INT_MAX)
    (hnum : nl ≤ num.length) (hden : dl ≤ den.length)
    (hbig : (MAX_LEN : Int) < nl ∨ (MAX_LEN : Int) < dl) :
    construct num den nl dl = .error (.store MAX_LEN) ∧
    constructGain g num den nl dl = .error (.store MAX_LEN) := by
  have hM : MAX_LEN = 10 := rfl
  have eN : toSizeT nl = nl.toNat := toSizeT_of_lt hn0 (by simp [INT_MAX] at hni; omega)
  have eD : toSizeT dl = dl.toNat := toSizeT_of_lt hd0 (by simp [INT_MAX] at hdi; omega)
  have hbN : ∀ j : Nat, j < num.length → ∀ s, numCopyBody num j s = s.wr j (num[j]?) := by
    intro j hlt s
    simp [numCopyBody, argRd_of_lt num hlt, hlt, bind, Except.bind]
  have hc : construct num den nl dl = .error (.store MAX_LEN) := by
    by_cases hN : (MAX_LEN : Int) < nl
    · have h1 := forUp_copy_store (numCopyBody num) (fun j => num[j]?) nl.toNat 0
        (Arr.fill none) (by omega) (by omega)
        (fun j _ hj s => hbN j (by omega) s)
      simp [construct, eN, h1, bind, Except.bind]
    · have hD : (MAX_LEN : Int) < dl := by
        rcases hbig with h | h
        · exact absurd h hN
        · exact h
      have hpos : 0 < den.length := by omega
      have hr0 : argRd den 0 = .ok den[0] := argRd_of_lt den hpos
      obtain ⟨nc, h1, _⟩ := forUp_copy (numCopyBody num) (fun j => num[j]?) nl.toNat 0
        (Arr.fill none) (by omega) (fun j _ hj s => hbN j (by omega) s)
      have h2 := forUp_copy_store (denCopyBody den) (fun j => (den[j]?).map (· / den[0]))
        dl.toNat 0 (Arr.fill none) (by omega) (by omega)
        (fun j _ hj s => by
          have hlt : j < den.length := by omega
          simp [denCopyBody, argRd_of_lt den hlt, hr0, hlt, bind, Except.bind])
      simp [construct, eN, eD, h1, h2, bind, Except.bind]
  exact ⟨hc, by simp [constructGain, hc, bind, Except.bind]⟩

/-- C5 amended, at `numLen = 2`, `denLen = 11`. -/
theorem C5_no_capacity_check_witness :
    construct ([1, 2] : List ℚ) (List.replicate 11 1) 2 11 = .error (.store MAX_LEN) ∧
    constructGain (3 : ℚ) [1, 2] (List.replicate 11 1) 2 11 = .error (.store MAX_LEN) :=
  C5_no_capacity_check 3 [1, 2] (List.replicate 11 1) 2 11 (by decide) (by decide) (by decide)
    (by decide) (by decide) (by decide) (Or.inr (by decide))


/-- C6: for `numLen`, `denLen` in `1 .. MAX_LEN` (and `den[0] ≠ 0`) both
constructors return an object, and every sequence of `update` calls on it
returns: no access of the constructor or of `update` falls outside
`mNumCoeffs`, `mDenCoeffs`, `mInput` or `mOutput` (any such access would be
a `Fault`). -/
theorem C6_capacity (g : ℚ) (num den : List ℚ) (nl dl : Int) (d0 : ℚ)
    (hn1 : 1 ≤ nl) (hn : nl ≤ MAX_LEN) (hd1 : 1 ≤ dl) (hd : dl ≤ MAX_LEN)
    (hnum : nl ≤ num.length) (hden : dl ≤ den.length)
    (h0 : den[0]? = some d0) (_hne : d0 ≠ 0) :
    ∃ fa fb, construct num den nl dl = .ok fa ∧ constructGain g num den nl dl = .ok fb ∧
      ∀ f0, f0 = fa ∨ f0 = fb → ∀ xs : List ℚ, ∃ f1 ys, f0.run xs = .ok (f1, ys) := by
  obtain ⟨fa, hfa, _, _, _, hin, hout, hl, hc, _, _⟩ :=
    construct_ready num den nl dl d0 hn1 hn hd1 hd hnum hden h0
  refine ⟨fa, _, hfa, constructGain_spec g num den nl dl fa hfa, ?_⟩
  have key : ∀ f0 : DigiSys ℚ, f0.LensOk → f0.CoeffsInit →
      f0.mInput = Arr.fill 0 → f0.mOutput = Arr.fill 0 →
      ∀ xs : List ℚ, ∃ f1 ys, f0.run xs = .ok (f1, ys) := by
    intro f0 hl0 hc0 hi0 ho0 xs
    obtain ⟨inp, out, ys, hrun, _⟩ := run_spec f0 hl0 hc0
      (fun j => by rw [hi0]; exact Arr.val_fill j) (fun j => by rw [ho0]; exact Arr.val_fill j) xs
    exact ⟨_, ys, hrun⟩
  rintro f0 (rfl | rfl)
  · exact key f0 hl hc hin hout
  · exact key _ hl hc hin hout

/-- C6 at the largest lengths, `numLen = denLen = MAX_LEN`. -/
theorem C6_capacity_witness :
    ∃ fa fb, construct (List.replicate 10 (1 : ℚ)) (List.replicate 10 2) 10 10 = .ok fa ∧
      constructGain (3 : ℚ) (List.replicate 10 1) (List.replicate 10 2) 10 10 = .ok fb ∧
      ∀ f0, f0 = fa ∨ f0 = fb → ∀ xs : List ℚ, ∃ f1 ys, f0.run xs = .ok (f1, ys) :=
  C6_capacity 3 (List.replicate 10 1) (List.replicate 10 2) 10 10 2 (by decide) (by decide)
    (by decide) (by decide) (by decide) (by decide) rfl (by norm_num)

/-- C7: the filter built from `num = [1]`, `den = [1, -0.5]` returns
`1, 0.5, 0.25, 0.125` for the inputs `1, 0, 0, 0`, and for every input
sequence each call returns `y[n] = x[n] + 0.5 * y[n-1]`. -/
theorem C7_first_order_iir :
    ∃ f0, construct ([1] : List ℚ) [1, -1 / 2] 1 2 = .ok f0 ∧
      (∃ f1, f0.run [1, 0, 0, 0] = .ok (f1, [1, 1 / 2, 1 / 4, 1 / 8])) ∧
      ∀ xs : List ℚ, ∃ f1 ys, f0.run xs = .ok (f1, ys) ∧ ys.length = xs.length ∧
        ∀ n, n < xs.length → ys.getD n 0 = xs.getD n 0 + 1 / 2 * past ys n 1 := by
  obtain ⟨f0, hf0, hnl, hdl, hg, hin, hout, hl, hc, hnc, hdc⟩ :=
    construct_ready ([1] : List ℚ) [1, -1 / 2] 1 2 1 (by decide) (by decide) (by decide)
      (by decide) (by decide) (by decide) rfl
  have hb0 : f0.mNumCoeffs.coef 0 = 1 := by
    simp [Arr.coef, hnc 0 (by decide)]
  have ha1 : f0.mDenCoeffs.coef 1 = -1 / 2 := by
    simp [Arr.coef, hdc 1 (by decide)]
  have hgen : ∀ xs : List ℚ, ∃ f1 ys, f0.run xs = .ok (f1, ys) ∧ ys.length = xs.length ∧
      ∀ n, n < xs.length → ys.getD n 0 = xs.getD n 0 + 1 / 2 * past ys n 1 := by
    intro xs
    obtain ⟨inp, out, ys, hrun, hlen, _, _, hform⟩ := run_spec f0 hl hc
      (fun j => by rw [hin]; exact Arr.val_fill j) (fun j => by rw [hout]; exact Arr.val_fill j) xs
    refine ⟨_, ys, hrun, hlen, fun n hn => ?_⟩
    rw [hform n hn, hnl, hdl, hg]
    simp [hb0, ha1, past_zero]
    ring
  refine ⟨f0, hf0, ?_, hgen⟩
  obtain ⟨f1, ys, hrun, hlen, hrec⟩ := hgen [1, 0, 0, 0]
  refine ⟨f1, ?_⟩
  rw [hrun]
  match ys, hlen, hrec with
  | [a, b, c, d], _, hrec =>
    have h0 := hrec 0 (by decide)
    have h1 := hrec 1 (by decide)
    have h2 := hrec 2 (by decide)
    have h3 := hrec 3 (by decide)
    simp [past] at h0 h1 h2 h3
    subst h0
    subst h1
    subst h2
    subst h3
    norm_num

/-- C8: the filter built from `num = [1]`, `den = [1]` returns every input
unchanged: on every sequence of calls from the fresh state, and on a single
call whatever the two histories hold. -/
theorem C8_identity_filter :
    ∃ f0, construct ([1] : List ℚ) [1] 1 1 = .ok f0 ∧
      (∀ xs : List ℚ, ∃ f1, f0.run xs = .ok (f1, xs)) ∧
      ∀ (inp out : Arr ℚ) (x : ℚ), ∃ f1,
        ({ f0 with mOutput := out, mInput := inp } : DigiSys ℚ).update x = .ok (f1, x) := by
  obtain ⟨f0, hf0, hnl, hdl, hg, _, _, _, hc, hnc, _⟩ :=
    construct_ready ([1] : List ℚ) [1] 1 1 1 (by decide) (by decide) (by decide)
      (by decide) (by decide) (by decide) rfl
  have hb0 : f0.mNumCoeffs.coef 0 = 1 := by
    simp [Arr.coef, hnc 0 (by decide)]
  refine ⟨f0, hf0, fun xs => ?_, fun inp out x => ?_⟩
  · obtain ⟨inp, out, hrun⟩ := run_memoryless f0 hnl hdl hc xs
    refine ⟨{ f0 with mOutput := out, mInput := inp }, ?_⟩
    rw [hrun, hb0, hg]
    simp
  · obtain ⟨inp2, out2, hupd⟩ :=
      update_memoryless { f0 with mOutput := out, mInput := inp } hnl hdl hc x
    refine ⟨{ f0 with mOutput := out2, mInput := inp2 }, ?_⟩
    rw [hupd]
    show Except.ok (_, f0.mNumCoeffs.coef 0 * x * f0.mGain) = _
    rw [hb0, hg]
    simp

/-- C9: the filter built through the gain overload with `gain = 2`,
`num = [1]`, `den = [1]` returns twice every input: on every sequence of
calls from the fresh state, and on a single call whatever the two histories
hold. -/
theorem C9_scaling_filter :
    ∃ f0, constructGain (2 : ℚ) [1] [1] 1 1 = .ok f0 ∧
      (∀ xs : List ℚ, ∃ f1, f0.run xs = .ok (f1, xs.map fun x => 2 * x)) ∧
      ∀ (inp out : Arr ℚ) (x : ℚ), ∃ f1,
        ({ f0 with mOutput := out, mInput := inp } : DigiSys ℚ).update x = .ok (f1, 2 * x) := by
  obtain ⟨fa, hfa, hnl, hdl, hg, _, _, _, hc, hnc, _⟩ :=
    construct_ready ([1] : List ℚ) [1] 1 1 1 (by decide) (by decide) (by decide)
      (by decide) (by decide) (by decide) rfl
  have hb0 : fa.mNumCoeffs.coef 0 = 1 := by
    simp [Arr.coef, hnc 0 (by decide)]
  refine ⟨_, constructGain_spec 2 [1] [1] 1 1 fa hfa, fun xs => ?_, fun inp out x => ?_⟩
  · obtain ⟨inp, out, hrun⟩ :=
      run_memoryless { fa with mGain := fa.mGain * 2 } hnl hdl hc xs
    refine ⟨{ fa with mOutput := out, mInput := inp, mGain := fa.mGain * 2 }, ?_⟩
    rw [hrun]
    show Except.ok (_, xs.map fun x => fa.mNumCoeffs.coef 0 * x * (fa.mGain * 2)) = _
    rw [hb0, hg]
    congr 2
    apply List.map_congr_left
    intro x _
    ring
  · obtain ⟨inp2, out2, hupd⟩ := update_memoryless
      { fa with mOutput := out, mInput := inp, mGain := fa.mGain * 2 } hnl hdl hc x
    refine ⟨{ fa with mOutput := out2, mInput := inp2, mGain := fa.mGain * 2 }, ?_⟩
    rw [hupd]
    show Except.ok (_, fa.mNumCoeffs.coef 0 * x * (fa.mGain * 2)) = _
    rw [hb0, hg]
    congr 2
    ring

/-- C10, as stated, fails: the gain may be any double.  With `num = [1]`,
`den = [1]` (so `den[0] ≠ 0`) and an infinite gain the stored gain is
infinite, and each of two calls `update(0)` returns the non-finite product
`0 * gain` (a NaN), not 0. -/
theorem C10_counterexample :
    ((constructGain Dbl.nonfin ([.fin 1] : List Dbl) [.fin 1] 1 1).bind
        fun f => f.run [0, 0]).map Prod.snd = .ok [.nonfin, .nonfin] ∧
    Dbl.nonfin ≠ (0 : Dbl) :=
  ⟨rfl, fun h => Dbl.noConfusion h⟩

/-- C10, amended: in exact arithmetic, a freshly constructed filter (either
constructor, lengths in `1 .. MAX_LEN`) with finite `num`, finite `den`
with `den[0] ≠ 0` and a finite gain returns 0 on each of `n` successive
calls `update(0)`, for every `n`. -/
theorem C10_zero_state (g : ℚ) (num den : List ℚ) (nl dl : Int) (d0 : ℚ)
    (hn1 : 1 ≤ nl) (hn : nl ≤ MAX_LEN) (hd1 : 1 ≤ dl) (hd : dl ≤ MAX_LEN)
    (hnum : nl ≤ num.length) (hden : dl ≤ den.length)
    (h0 : den[0]? = some d0) (_hne : d0 ≠ 0) :
    ∃ fa fb, construct num den nl dl = .ok fa ∧ constructGain g num den nl dl = .ok fb ∧
      ∀ f0, f0 = fa ∨ f0 = fb → ∀ n : Nat, ∃ f1,
        f0.run (List.replicate n 0) = .ok (f1, List.replicate n 0) := by
  obtain ⟨fa, hfa, _, _, _, hin, hout, hl, hc, _, _⟩ :=
    construct_ready num den nl dl d0 hn1 hn hd1 hd hnum hden h0
  refine ⟨fa, _, hfa, constructGain_spec g num den nl dl fa hfa, ?_⟩
  have key : ∀ f0 : DigiSys ℚ, f0.LensOk → f0.CoeffsInit →
      f0.mInput = Arr.fill 0 → f0.mOutput = Arr.fill 0 →
      ∀ n : Nat, ∃ f1, f0.run (List.replicate n 0) = .ok (f1, List.replicate n 0) := by
    intro f0 hl0 hc0 hi0 ho0 n
    obtain ⟨inp, out, hrun, _, _⟩ := run_zero f0 hl0 hc0
      (fun j => by rw [hi0]; exact Arr.val_fill j) (fun j => by rw [ho0]; exact Arr.val_fill j) n
    exact ⟨_, hrun⟩
  rintro f0 (rfl | rfl)
  · exact key f0 hl hc hin hout
  · exact key _ hl hc hin hout

/-- C10 amended, at `gain = 3`, `num = [1, 2]`, `den = [2, 1]`. -/
theorem C10_zero_state_witness :
    ∃ fa fb, construct ([1, 2] : List ℚ) [2, 1] 2 2 = .ok fa ∧
      constructGain (3 : ℚ) [1, 2] [2, 1] 2 2 = .ok fb ∧
      ∀ f0, f0 = fa ∨ f0 = fb → ∀ n : Nat, ∃ f1,
        f0.run (List.replicate n 0) = .ok (f1, List.replicate n 0) :=
  C10_zero_state 3 [1, 2] [2, 1] 2 2 2 (by decide) (by decide) (by decide) (by decide)
    (by decide) (by decide) rfl (by norm_num)


/-- C12: on a filter state with `1 ≤ numLen, denLen ≤ MAX_LEN` (its
coefficients below the lengths written, as after construction) `update`
returns and leaves `numLen`, `denLen`, all of `numCoeffs` and `denCoeffs`
and the gain unchanged, as well as every `inputHistory` entry at index
`≥ numLen` and every `outputHistory` entry at index `≥ denLen`. -/
theorem C12_update_frame (f : DigiSys ℚ) (x : ℚ) (hl : f.LensOk) (hc : f.CoeffsInit) :
    ∃ f1 y, f.update x = .ok (f1, y) ∧
      f1.mNumLen = f.mNumLen ∧ f1.mDenLen = f.mDenLen ∧
      f1.mNumCoeffs = f.mNumCoeffs ∧ f1.mDenCoeffs = f.mDenCoeffs ∧ f1.mGain = f.mGain ∧
      (∀ i : Nat, f.mNumLen ≤ i → f1.mInput.cells[i]? = f.mInput.cells[i]?) ∧
      (∀ i : Nat, f.mDenLen ≤ i → f1.mOutput.cells[i]? = f.mOutput.cells[i]?) := by
  obtain ⟨inp, out, hupd, _, _, hin, _, hout, _⟩ := update_vals f x hl hc
  exact ⟨_, _, hupd, rfl, rfl, rfl, rfl, rfl, fun i hi => hin i (by omega),
    fun i hi => hout i (by omega)⟩

/-- C12 at a state with `numLen = 3`, `denLen = 2` and the input `10`. -/
theorem C12_update_frame_witness :
    ∃ f1 y, exampleState.update 10 = .ok (f1, y) ∧
      f1.mNumLen = exampleState.mNumLen ∧ f1.mDenLen = exampleState.mDenLen ∧
      f1.mNumCoeffs = exampleState.mNumCoeffs ∧ f1.mDenCoeffs = exampleState.mDenCoeffs ∧
      f1.mGain = exampleState.mGain ∧
      (∀ i : Nat, exampleState.mNumLen ≤ i →
        f1.mInput.cells[i]? = exampleState.mInput.cells[i]?) ∧
      (∀ i : Nat, exampleState.mDenLen ≤ i →
        f1.mOutput.cells[i]? = exampleState.mOutput.cells[i]?) :=
  C12_update_frame exampleState 10 exampleState_lensOk exampleState_coeffsInit

/-- C13: on a filter state with `1 ≤ numLen, denLen ≤ MAX_LEN` (coefficients
written) `update(input)` returns `gain * (numCoeffs[0] * input +
Σ_{1 ≤ i < numLen} numCoeffs[i] * inIn[i-1]) - Σ_{1 ≤ i < denLen}
denCoeffs[i] * outIn[i-1]`, with `inIn`, `outIn` the histories before the
call: the gain multiplies the numerator sum only, and the feedback sum uses
the outputs of earlier calls. -/
theorem C13_update_value (f : DigiSys ℚ) (x : ℚ) (hl : f.LensOk) (hc : f.CoeffsInit) :
    ∃ f1, f.update x = .ok (f1,
      f.mGain * (f.mNumCoeffs.coef 0 * x
          + ∑ i ∈ Finset.Ico 1 f.mNumLen.toNat, f.mNumCoeffs.coef i * f.mInput.val (i - 1))
        - ∑ i ∈ Finset.Ico 1 f.mDenLen.toNat, f.mDenCoeffs.coef i * f.mOutput.val (i - 1)) := by
  obtain ⟨inp, out, hupd, _, _, _, _, _, hy⟩ := update_vals f x hl hc
  rw [hy] at hupd
  exact ⟨_, hupd⟩

/-- C13 at a state with `numLen = 3`, `denLen = 2` and the input `10`. -/
theorem C13_update_value_witness :
    ∃ f1, exampleState.update 10 = .ok (f1,
      exampleState.mGain * (exampleState.mNumCoeffs.coef 0 * 10
          + ∑ i ∈ Finset.Ico 1 exampleState.mNumLen.toNat,
              exampleState.mNumCoeffs.coef i * exampleState.mInput.val (i - 1))
        - ∑ i ∈ Finset.Ico 1 exampleState.mDenLen.toNat,
            exampleState.mDenCoeffs.coef i * exampleState.mOutput.val (i - 1)) :=
  C13_update_value exampleState 10 exampleState_lensOk exampleState_coeffsInit

/-- C14: on a filter state with `1 ≤ numLen, denLen ≤ MAX_LEN` (coefficients
written), after `update(input)`: `inputHistory[0] = input` and
`inputHistory[i]` is the earlier `inputHistory[i-1]` for `1 ≤ i < numLen`;
`outputHistory[0]` is the returned value and `outputHistory[i]` the earlier
`outputHistory[i-1]` for `1 ≤ i < denLen`. -/
theorem C14_update_histories (f : DigiSys ℚ) (x : ℚ) (hl : f.LensOk) (hc : f.CoeffsInit) :
    ∃ f1 y, f.update x = .ok (f1, y) ∧
      f1.mInput.rd 0 = .ok x ∧
      (∀ i : Nat, 1 ≤ i → (i : Int) < f.mNumLen → f1.mInput.rd i = f.mInput.rd (i - 1)) ∧
      f1.mOutput.rd 0 = .ok y ∧
      (∀ i : Nat, 1 ≤ i → (i : Int) < f.mDenLen → f1.mOutput.rd i = f.mOutput.rd (i - 1)) := by
  obtain ⟨inp, out, hupd, h0, hin, _, hout, _, _⟩ := update_vals f x hl hc
  obtain ⟨_, hn2, _, hd2⟩ := hl
  have hM : MAX_LEN = 10 := rfl
  have z : 0 < MAX_LEN := by decide
  refine ⟨_, _, hupd, ?_, fun i h1 h2 => ?_, ?_, fun i h1 h2 => ?_⟩
  · show inp.rd 0 = _
    rw [inp.rd_eq_val z, h0]
  · show inp.rd i = _
    rw [inp.rd_eq_val (by omega), f.mInput.rd_eq_val (by omega), hin i h1 (by omega)]
  · exact out.rd_eq_val z
  · show out.rd i = _
    rw [out.rd_eq_val (by omega), f.mOutput.rd_eq_val (by omega), hout i h1 (by omega)]

/-- C14 at a state with `numLen = 3`, `denLen = 2` and the input `10`. -/
theorem C14_update_histories_witness :
    ∃ f1 y, exampleState.update 10 = .ok (f1, y) ∧
      f1.mInput.rd 0 = .ok 10 ∧
      (∀ i : Nat, 1 ≤ i → (i : Int) < exampleState.mNumLen →
        f1.mInput.rd i = exampleState.mInput.rd (i - 1)) ∧
      f1.mOutput.rd 0 = .ok y ∧
      (∀ i : Nat, 1 ≤ i → (i : Int) < exampleState.mDenLen →
        f1.mOutput.rd i = exampleState.mOutput.rd (i - 1)) :=
  C14_update_histories exampleState 10 exampleState_lensOk exampleState_coeffsInit


/-- C15: after `k` calls on a freshly constructed filter with inputs
`x[0..k-1]` and returned values `y[0..k-1]`: `inputHistory[i] = x[k-1-i]` for
`i < min(k, numLen)` and `0` for `k ≤ i < numLen`; `outputHistory[i] =
y[k-1-i]` for `i < min(k, denLen)` and `0` for `k ≤ i < denLen`. -/
theorem C15_history_contents (g : ℚ) (num den : List ℚ) (nl dl : Int) (d0 : ℚ)
    (hn1 : 1 ≤ nl) (hn : nl ≤ MAX_LEN) (hd1 : 1 ≤ dl) (hd : dl ≤ MAX_LEN)
    (hnum : nl ≤ num.length) (hden : dl ≤ den.length)
    (h0 : den[0]? = some d0) (_hne : d0 ≠ 0) (xs : List ℚ) :
    ∃ fa fb, construct num den nl dl = .ok fa ∧ constructGain g num den nl dl = .ok fb ∧
      ∀ f0, f0 = fa ∨ f0 = fb → ∃ f1 ys, f0.run xs = .ok (f1, ys) ∧ ys.length = xs.length ∧
        (∀ i : Nat, (i : Int) < nl → i < xs.length →
          f1.mInput.rd i = .ok (xs.getD (xs.length - 1 - i) 0)) ∧
        (∀ i : Nat, (i : Int) < nl → xs.length ≤ i → f1.mInput.rd i = .ok 0) ∧
        (∀ i : Nat, (i : Int) < dl → i < xs.length →
          f1.mOutput.rd i = .ok (ys.getD (xs.length - 1 - i) 0)) ∧
        (∀ i : Nat, (i : Int) < dl → xs.length ≤ i → f1.mOutput.rd i = .ok 0) := by
  obtain ⟨fa, hfa, hfb, hnl, hdl, _, hin, hout, hl, hc, _, _⟩ :=
    construct_both g num den nl dl d0 hn1 hn hd1 hd hnum hden h0
  refine ⟨fa, _, hfa, hfb, ?_⟩
  have hM : MAX_LEN = 10 := rfl
  have key : ∀ f0 : DigiSys ℚ, f0.mNumLen = nl → f0.mDenLen = dl → f0.LensOk → f0.CoeffsInit →
      f0.mInput = Arr.fill 0 → f0.mOutput = Arr.fill 0 →
      ∃ f1 ys, f0.run xs = .ok (f1, ys) ∧ ys.length = xs.length ∧
        (∀ i : Nat, (i : Int) < nl → i < xs.length →
          f1.mInput.rd i = .ok (xs.getD (xs.length - 1 - i) 0)) ∧
        (∀ i : Nat, (i : Int) < nl → xs.length ≤ i → f1.mInput.rd i = .ok 0) ∧
        (∀ i : Nat, (i : Int) < dl → i < xs.length →
          f1.mOutput.rd i = .ok (ys.getD (xs.length - 1 - i) 0)) ∧
        (∀ i : Nat, (i : Int) < dl → xs.length ≤ i → f1.mOutput.rd i = .ok 0) := by
    intro f0 e1 e2 hl0 hc0 hi0 ho0
    obtain ⟨f1, ys, hrun, hlen, hinp, hout', _⟩ := run_fresh f0 hl0 hc0 hi0 ho0 xs
    rw [e1] at hinp
    rw [e2] at hout'
    refine ⟨f1, ys, hrun, hlen, fun i h1 h2 => ?_, fun i h1 h2 => ?_, fun i h1 h2 => ?_,
      fun i h1 h2 => ?_⟩
    · rw [f1.mInput.rd_eq_val (by omega), hinp i (by omega)]
      unfold past
      rw [if_pos (by omega)]
      have : xs.length - (i + 1) = xs.length - 1 - i := by omega
      rw [this]
    · rw [f1.mInput.rd_eq_val (by omega), hinp i (by omega)]
      unfold past
      rw [if_neg (by omega)]
    · rw [f1.mOutput.rd_eq_val (by omega), hout' i (by omega)]
      unfold past
      rw [if_pos (by omega)]
      have : xs.length - (i + 1) = xs.length - 1 - i := by omega
      rw [this]
    · rw [f1.mOutput.rd_eq_val (by omega), hout' i (by omega)]
      unfold past
      rw [if_neg (by omega)]
  rintro f0 (rfl | rfl)
  · exact key f0 hnl hdl hl hc hin hout
  · exact key _ hnl hdl hl hc hin hout

/-- C15 at `gain = 3`, `num = [1, 2, 3]`, `den = [2, 1]` and the two inputs
`5, 7`. -/
theorem C15_history_contents_witness :
    ∃ fa fb, construct ([1, 2, 3] : List ℚ) [2, 1] 3 2 = .ok fa ∧
      constructGain (3 : ℚ) [1, 2, 3] [2, 1] 3 2 = .ok fb ∧
      ∀ f0, f0 = fa ∨ f0 = fb → ∃ f1 ys, f0.run [5, 7] = .ok (f1, ys) ∧
        ys.length = ([5, 7] : List ℚ).length ∧
        (∀ i : Nat, (i : Int) < 3 → i < ([5, 7] : List ℚ).length →
          f1.mInput.rd i = .ok (([5, 7] : List ℚ).getD (([5, 7] : List ℚ).length - 1 - i) 0)) ∧
        (∀ i : Nat, (i : Int) < 3 → ([5, 7] : List ℚ).length ≤ i → f1.mInput.rd i = .ok 0) ∧
        (∀ i : Nat, (i : Int) < 2 → i < ([5, 7] : List ℚ).length →
          f1.mOutput.rd i = .ok (ys.getD (([5, 7] : List ℚ).length - 1 - i) 0)) ∧
        (∀ i : Nat, (i : Int) < 2 → ([5, 7] : List ℚ).length ≤ i → f1.mOutput.rd i = .ok 0) :=
  C15_history_contents 3 [1, 2, 3] [2, 1] 3 2 2 (by decide) (by decide) (by decide) (by decide)
    (by decide) (by decide) rfl (by norm_num) [5, 7]


/-- C16 (superposition): for a freshly constructed filter, equal-length
input sequences `u`, `v` and scalars `a`, `b`, the outputs for the input
`a * u + b * v` are, sample by sample, `a` times the outputs for `u` plus
`b` times the outputs for `v`. -/
theorem C16_superposition (g : ℚ) (num den : List ℚ) (nl dl : Int) (d0 : ℚ)
    (hn1 : 1 ≤ nl) (hn : nl ≤ MAX_LEN) (hd1 : 1 ≤ dl) (hd : dl ≤ MAX_LEN)
    (hnum : nl ≤ num.length) (hden : dl ≤ den.length)
    (h0 : den[0]? = some d0) (_hne : d0 ≠ 0)
    (a b : ℚ) (u v : List ℚ) (huv : u.length = v.length) :
    ∃ fa fb, construct num den nl dl = .ok fa ∧ constructGain g num den nl dl = .ok fb ∧
      ∀ f0, f0 = fa ∨ f0 = fb → ∃ fw fu fv yu yv,
        f0.run u = .ok (fu, yu) ∧ f0.run v = .ok (fv, yv) ∧
        f0.run (List.zipWith (fun p q => a * p + b * q) u v) =
          .ok (fw, List.zipWith (fun p q => a * p + b * q) yu yv) := by
  obtain ⟨fa, hfa, hfb, _, _, _, hin, hout, hl, hc, _, _⟩ :=
    construct_both g num den nl dl d0 hn1 hn hd1 hd hnum hden h0
  refine ⟨fa, _, hfa, hfb, ?_⟩
  have key : ∀ f0 : DigiSys ℚ, f0.LensOk → f0.CoeffsInit →
      f0.mInput = Arr.fill 0 → f0.mOutput = Arr.fill 0 → ∃ fw fu fv yu yv,
        f0.run u = .ok (fu, yu) ∧ f0.run v = .ok (fv, yv) ∧
        f0.run (List.zipWith (fun p q => a * p + b * q) u v) =
          .ok (fw, List.zipWith (fun p q => a * p + b * q) yu yv) := by
    intro f0 hl0 hc0 hi0 ho0
    obtain ⟨fu, yu, hru, hlu, _, _, hfu⟩ := run_fresh f0 hl0 hc0 hi0 ho0 u
    obtain ⟨fv, yv, hrv, hlv, _, _, hfv⟩ := run_fresh f0 hl0 hc0 hi0 ho0 v
    obtain ⟨fw, yw, hrw, hlw, _, _, hfw⟩ := run_fresh f0 hl0 hc0 hi0 ho0
      (List.zipWith (fun p q => a * p + b * q) u v)
    have hwl : (List.zipWith (fun p q => a * p + b * q) u v).length = u.length := by
      simp [huv]
    rw [hwl] at hlw hfw
    have hlin := recurrence_linear f0.mDenLen.toNat (fun j => -f0.mDenCoeffs.coef j) a b
      yw yu yv _ _ _ u.length hfw hfu (by rw [huv]; exact hfv) (by
        intro n _
        have hp : ∀ j ∈ Finset.range f0.mNumLen.toNat,
            f0.mNumCoeffs.coef j * past (List.zipWith (fun p q => a * p + b * q) u v) n j =
              a * (f0.mNumCoeffs.coef j * past u n j)
                + b * (f0.mNumCoeffs.coef j * past v n j) := by
          intro j _
          rw [past_zipWith_lin a b u v huv]; ring
        rw [Finset.sum_congr rfl hp, Finset.sum_add_distrib, ← Finset.mul_sum,
          ← Finset.mul_sum]
        ring)
    have hyw : yw = List.zipWith (fun p q => a * p + b * q) yu yv := by
      apply list_ext_getD
      · simp [hlw, hlu, hlv, huv]
      · intro n hn'
        rw [getD_zipWith_lin a b yu yv (by omega)]
        exact hlin n (by omega)
    rw [hyw] at hrw
    exact ⟨fw, fu, fv, yu, yv, hru, hrv, hrw⟩
  rintro f0 (rfl | rfl)
  · exact key f0 hl hc hin hout
  · exact key _ hl hc hin hout

/-- C16 at `gain = 3`, `num = [1, 2]`, `den = [2, 1]`, `a = 2`, `b = -1`,
`u = [1, 0, 4]`, `v = [0, 5, 1]`. -/
theorem C16_superposition_witness :
    ∃ fa fb, construct ([1, 2] : List ℚ) [2, 1] 2 2 = .ok fa ∧
      constructGain (3 : ℚ) [1, 2] [2, 1] 2 2 = .ok fb ∧
      ∀ f0, f0 = fa ∨ f0 = fb → ∃ fw fu fv yu yv,
        f0.run [1, 0, 4] = .ok (fu, yu) ∧ f0.run [0, 5, 1] = .ok (fv, yv) ∧
        f0.run (List.zipWith (fun p q => 2 * p + -1 * q) [1, 0, 4] [0, 5, 1]) =
          .ok (fw, List.zipWith (fun p q => 2 * p + -1 * q) yu yv) :=
  C16_superposition 3 [1, 2] [2, 1] 2 2 2 (by decide) (by decide) (by decide) (by decide)
    (by decide) (by decide) rfl (by norm_num) 2 (-1) [1, 0, 4] [0, 5, 1] rfl

/-- C17, as stated, fails: the claim does not ask for `den[0] ≠ 0`.  With
`num = [1, 2]`, `den = [0, 1]` the constructor returns an object whose gain
is the non-finite `1 / 0`; its first call `update(0)` returns the non-finite
`0 * gain` (a NaN), not 0, and leaves that value in `mOutput[0]`, which held
0 in the fresh object. -/
theorem C17_counterexample :
    ∃ f0 f1, construct ([.fin 1, .fin 2] : List Dbl) [.fin 0, .fin 1] 2 2 = .ok f0 ∧
      f0.update 0 = .ok (f1, .nonfin) ∧ Dbl.nonfin ≠ (0 : Dbl) ∧
      f0.mOutput.rd 0 = .ok 0 ∧ f1.mOutput.rd 0 = .ok .nonfin :=
  ⟨_, _, rfl, rfl, fun h => Dbl.noConfusion h, rfl, rfl⟩

/-- C17 (time invariance), amended: in exact arithmetic, a freshly
constructed filter with finite coefficients and gain and `den[0] ≠ 0`
returns 0 on a first call `update(0)` and is then in the same state as
before; fed `0` followed by `u` it returns 0 and then the values it returns
when fed `u` alone. -/
theorem C17_time_invariance (g : ℚ) (num den : List ℚ) (nl dl : Int) (d0 : ℚ)
    (hn1 : 1 ≤ nl) (hn : nl ≤ MAX_LEN) (hd1 : 1 ≤ dl) (hd : dl ≤ MAX_LEN)
    (hnum : nl ≤ num.length) (hden : dl ≤ den.length)
    (h0 : den[0]? = some d0) (_hne : d0 ≠ 0) (u : List ℚ) :
    ∃ fa fb, construct num den nl dl = .ok fa ∧ constructGain g num den nl dl = .ok fb ∧
      ∀ f0, f0 = fa ∨ f0 = fb → f0.update 0 = .ok (f0, 0) ∧
        ∃ f1 ys, f0.run u = .ok (f1, ys) ∧ f0.run (0 :: u) = .ok (f1, 0 :: ys) := by
  obtain ⟨fa, hfa, hfb, _, _, _, hin, hout, hl, hc, _, _⟩ :=
    construct_both g num den nl dl d0 hn1 hn hd1 hd hnum hden h0
  refine ⟨fa, _, hfa, hfb, ?_⟩
  have key : ∀ f0 : DigiSys ℚ, f0.LensOk → f0.CoeffsInit →
      f0.mInput = Arr.fill 0 → f0.mOutput = Arr.fill 0 → f0.update 0 = .ok (f0, 0) ∧
        ∃ f1 ys, f0.run u = .ok (f1, ys) ∧ f0.run (0 :: u) = .ok (f1, 0 :: ys) := by
    intro f0 hl0 hc0 hi0 ho0
    have hz := update_zero_fresh f0 hl0 hc0 hi0 ho0
    obtain ⟨f1, ys, hrun, _⟩ := run_fresh f0 hl0 hc0 hi0 ho0 u
    exact ⟨hz, f1, ys, hrun, run_cons_ok f0 f0 f1 0 0 u ys hz hrun⟩
  rintro f0 (rfl | rfl)
  · exact key f0 hl hc hin hout
  · exact key _ hl hc hin hout

/-- C17 amended, at `gain = 3`, `num = [1, 2]`, `den = [2, 1]`,
`u = [1, 0, 4]`. -/
theorem C17_time_invariance_witness :
    ∃ fa fb, construct ([1, 2] : List ℚ) [2, 1] 2 2 = .ok fa ∧
      constructGain (3 : ℚ) [1, 2] [2, 1] 2 2 = .ok fb ∧
      ∀ f0, f0 = fa ∨ f0 = fb → f0.update 0 = .ok (f0, 0) ∧
        ∃ f1 ys, f0.run [1, 0, 4] = .ok (f1, ys) ∧
          f0.run (0 :: [1, 0, 4]) = .ok (f1, 0 :: ys) :=
  C17_time_invariance 3 [1, 2] [2, 1] 2 2 2 (by decide) (by decide) (by decide) (by decide)
    (by decide) (by decide) rfl (by norm_num) [1, 0, 4]


/-- C18 (the gain scales the response): every output of the filter built
with the gain overload `DigiSys(g, num, den, numLen, denLen)` is `g` times
the corresponding output of the filter built with `DigiSys(num, den, numLen,
denLen)`, both driven from their fresh state; with `g = 1` the outputs are
the same. -/
theorem C18_gain_scales (g : ℚ) (num den : List ℚ) (nl dl : Int) (d0 : ℚ)
    (hn1 : 1 ≤ nl) (hn : nl ≤ MAX_LEN) (hd1 : 1 ≤ dl) (hd : dl ≤ MAX_LEN)
    (hnum : nl ≤ num.length) (hden : dl ≤ den.length)
    (h0 : den[0]? = some d0) (_hne : d0 ≠ 0) (xs : List ℚ) :
    ∃ fa fb, construct num den nl dl = .ok fa ∧ constructGain g num den nl dl = .ok fb ∧
      ∃ f1 f2 ys, fa.run xs = .ok (f1, ys) ∧
        fb.run xs = .ok (f2, ys.map fun y => g * y) ∧
        (g = 1 → fb.run xs = .ok (f2, ys)) := by
  obtain ⟨fa, hfa, hfb, hnl, hdl, hg, hin, hout, hl, hc, hnc, hdc⟩ :=
    construct_both g num den nl dl d0 hn1 hn hd1 hd hnum hden h0
  refine ⟨fa, _, hfa, hfb, ?_⟩
  obtain ⟨f1, ya, hra, hla, hfa'⟩ :=
    run_canonical fa num den nl dl d0 hnl hdl hl hc hin hout hnc hdc xs
  obtain ⟨f2, yb, hrb, hlb, hfb'⟩ :=
    run_canonical { fa with mGain := fa.mGain * g } num den nl dl d0 hnl hdl hl hc hin hout
      hnc hdc xs
  have hlin := recurrence_linear dl.toNat (fun j => -(den.getD j 0 / d0)) g 0 yb ya ya _ _ _
    xs.length hfb' hfa' hfa' (by
      intro n _
      show _ * (fa.mGain * g) = _
      ring)
  have hyb : yb = ya.map fun y => g * y := by
    apply list_ext_getD
    · simp [hla, hlb]
    · intro n hn'
      have hn2 : n < ya.length := by omega
      rw [hlin n (by omega), List.getD_eq_getElem _ 0 hn2,
        List.getD_eq_getElem _ 0 (by simpa using hn2)]
      simp
  rw [hyb] at hrb
  refine ⟨f1, f2, ya, hra, hrb, fun h1 => ?_⟩
  rw [hrb, h1]
  simp

/-- C18 at `gain = 3`, `num = [1, 2]`, `den = [2, 1]`, inputs `1, 0, 4`. -/
theorem C18_gain_scales_witness :
    ∃ fa fb, construct ([1, 2] : List ℚ) [2, 1] 2 2 = .ok fa ∧
      constructGain (3 : ℚ) [1, 2] [2, 1] 2 2 = .ok fb ∧
      ∃ f1 f2 ys, fa.run [1, 0, 4] = .ok (f1, ys) ∧
        fb.run [1, 0, 4] = .ok (f2, ys.map fun y => 3 * y) ∧
        ((3 : ℚ) = 1 → fb.run [1, 0, 4] = .ok (f2, ys)) :=
  C18_gain_scales 3 [1, 2] [2, 1] 2 2 2 (by decide) (by decide) (by decide) (by decide)
    (by decide) (by decide) rfl (by norm_num) [1, 0, 4]


/-- C19 (normalisation preserves the transfer function): for `c ≠ 0` the
filter built from `(c * num, c * den)` returns, on every input sequence fed
from the fresh state, the outputs of the filter built from `(num, den)`
(with either constructor), while it stores the numerator coefficients
`c * num[i]` and the gain divided by `c`. -/
theorem C19_scaled_coefficients (c g : ℚ) (num den : List ℚ) (nl dl : Int) (d0 : ℚ)
    (hc0 : c ≠ 0) (hn1 : 1 ≤ nl) (hn : nl ≤ MAX_LEN) (hd1 : 1 ≤ dl) (hd : dl ≤ MAX_LEN)
    (hnum : nl ≤ num.length) (hden : dl ≤ den.length)
    (h0 : den[0]? = some d0) (hne : d0 ≠ 0) (xs : List ℚ) :
    ∃ fa fb fc fd, construct num den nl dl = .ok fa ∧
      constructGain g num den nl dl = .ok fb ∧
      construct (num.map fun x => c * x) (den.map fun x => c * x) nl dl = .ok fc ∧
      constructGain g (num.map fun x => c * x) (den.map fun x => c * x) nl dl = .ok fd ∧
      (∃ f1 f2 ys, fa.run xs = .ok (f1, ys) ∧ fc.run xs = .ok (f2, ys)) ∧
      (∃ f1 f2 ys, fb.run xs = .ok (f1, ys) ∧ fd.run xs = .ok (f2, ys)) ∧
      fc.mGain = fa.mGain / c ∧ fd.mGain = fb.mGain / c ∧
      ∀ i : Nat, (i : Int) < nl →
        fc.mNumCoeffs.coef i = c * fa.mNumCoeffs.coef i ∧
        fd.mNumCoeffs.coef i = c * fb.mNumCoeffs.coef i := by
  obtain ⟨fa, hfa, hfb, hnl, hdl, hg, hin, hout, hl, hc, hnc, hdc⟩ :=
    construct_both g num den nl dl d0 hn1 hn hd1 hd hnum hden h0
  obtain ⟨fc, hfc, hfd, hnl', hdl', hg', hin', hout', hl', hc', hnc', hdc'⟩ :=
    construct_both g (num.map fun x => c * x) (den.map fun x => c * x) nl dl (c * d0)
      hn1 hn hd1 hd (by simpa using hnum) (by simpa using hden) (by simp [h0])
  have hmapn : ∀ j : Nat, j < nl.toNat → (num.map fun x => c * x).getD j 0 = c * num.getD j 0 := by
    intro j hj
    have hlt : j < num.length := by omega
    simp [List.getD_eq_getElem?_getD, hlt]
  have hmapd : ∀ j : Nat, j < dl.toNat →
      (den.map fun x => c * x).getD j 0 / (c * d0) = den.getD j 0 / d0 := by
    intro j hj
    have hlt : j < den.length := by omega
    simp only [List.getD_eq_getElem?_getD, List.getElem?_map, List.getElem?_eq_getElem hlt,
      Option.map_some', Option.getD_some]
    exact mul_div_mul_left _ _ hc0
  have hdc2 : ∀ j : Nat, j < dl.toNat → fc.mDenCoeffs.coef j = den.getD j 0 / d0 :=
    fun j hj => by rw [hdc' j hj, hmapd j hj]
  have same : ∀ G : ℚ, ∃ f1 f2 ys,
      ({ fa with mGain := G } : DigiSys ℚ).run xs = .ok (f1, ys) ∧
      ({ fc with mGain := G / c } : DigiSys ℚ).run xs = .ok (f2, ys) := by
    intro G
    obtain ⟨f1, ya, hra, hla, hfa'⟩ :=
      run_canonical { fa with mGain := G } num den nl dl d0 hnl hdl hl hc hin hout hnc hdc xs
    obtain ⟨f2, yc, hrc, hlc, hfc'⟩ :=
      run_canonical { fc with mGain := G / c } (num.map fun x => c * x) den nl dl d0
        hnl' hdl' hl' hc' hin' hout' hnc' hdc2 xs
    have hlin := recurrence_linear dl.toNat (fun j => -(den.getD j 0 / d0)) 1 0 yc ya ya _ _ _
      xs.length hfc' hfa' hfa' (by
        intro n _
        show _ * (G / c) = 1 * (_ * G) + 0 * _
        have hs : ∑ j ∈ Finset.range nl.toNat, (num.map fun x => c * x).getD j 0 * past xs n j =
            c * ∑ j ∈ Finset.range nl.toNat, num.getD j 0 * past xs n j := by
          rw [Finset.mul_sum]
          exact Finset.sum_congr rfl fun j hj => by
            rw [hmapn j (by simpa using hj)]; ring
        rw [hs]
        field_simp
        ring)
    have hyc : yc = ya := by
      apply list_ext_getD
      · rw [hla, hlc]
      · intro n hn'
        rw [hlin n (by omega)]; ring
    rw [hyc] at hrc
    exact ⟨f1, f2, ya, hra, hrc⟩
  have egc : fc.mGain = fa.mGain / c := by
    rw [hg, hg']; field_simp; ring
  have e1 : ({ fa with mGain := fa.mGain } : DigiSys ℚ) = fa := rfl
  have e2 : ({ fc with mGain := fa.mGain / c } : DigiSys ℚ) = fc := by
    rw [← egc]
  have e3 : ({ fc with mGain := fa.mGain * g / c } : DigiSys ℚ) =
      { fc with mGain := fc.mGain * g } := by
    rw [egc]; congr 1; ring
  refine ⟨fa, _, fc, _, hfa, hfb, hfc, hfd, ?_, ?_, egc, ?_, fun i hi => ?_⟩
  · have h := same fa.mGain
    rw [e1, e2] at h
    exact h
  · have h := same (fa.mGain * g)
    rw [e3] at h
    exact h
  · show fc.mGain * g = fa.mGain * g / c
    rw [egc]; ring
  · have hi' : i < nl.toNat := by omega
    have : fc.mNumCoeffs.coef i = c * fa.mNumCoeffs.coef i := by
      rw [hnc' i hi', hnc i hi', hmapn i hi']
    exact ⟨this, this⟩

/-- C19 at `c = 5`, `gain = 3`, `num = [1, 2]`, `den = [2, 1]`, inputs
`1, 0, 4`. -/
theorem C19_scaled_coefficients_witness :
    ∃ fa fb fc fd, construct ([1, 2] : List ℚ) [2, 1] 2 2 = .ok fa ∧
      constructGain (3 : ℚ) [1, 2] [2, 1] 2 2 = .ok fb ∧
      construct (([1, 2] : List ℚ).map fun x => 5 * x) (([2, 1] : List ℚ).map fun x => 5 * x)
        2 2 = .ok fc ∧
      constructGain (3 : ℚ) (([1, 2] : List ℚ).map fun x => 5 * x)
        (([2, 1] : List ℚ).map fun x => 5 * x) 2 2 = .ok fd ∧
      (∃ f1 f2 ys, fa.run [1, 0, 4] = .ok (f1, ys) ∧ fc.run [1, 0, 4] = .ok (f2, ys)) ∧
      (∃ f1 f2 ys, fb.run [1, 0, 4] = .ok (f1, ys) ∧ fd.run [1, 0, 4] = .ok (f2, ys)) ∧
      fc.mGain = fa.mGain / 5 ∧ fd.mGain = fb.mGain / 5 ∧
      ∀ i : Nat, (i : Int) < 2 →
        fc.mNumCoeffs.coef i = 5 * fa.mNumCoeffs.coef i ∧
        fd.mNumCoeffs.coef i = 5 * fb.mNumCoeffs.coef i :=
  C19_scaled_coefficients 5 3 [1, 2] [2, 1] 2 2 2 (by norm_num) (by decide) (by decide)
    (by decide) (by decide) (by decide) (by decide) rfl (by norm_num) [1, 0, 4]


/-- C11, as stated, fails: the filter `num = [1]`, `den = [1, -1/2]` has
`numLen = 1`; the input sequences `1, 0` and `0, 0` differ in sample 0 only,
yet the second call, made `numLen` calls after that sample, returns `1/2`
for the first sequence and `0` for the second. -/
theorem C11_counterexample :
    ∃ f0 f1 f2, construct ([1] : List ℚ) [1, -1 / 2] 1 2 = .ok f0 ∧
      f0.run [1, 0] = .ok (f1, [1, 1 / 2]) ∧ f0.run [0, 0] = .ok (f2, [0, 0]) ∧
      ([1, 1 / 2] : List ℚ).getD 1 0 ≠ ([0, 0] : List ℚ).getD 1 0 := by
  obtain ⟨f0, f1, h1, h2⟩ := run_half_two 1 0
  obtain ⟨f0', f2, h1', h2'⟩ := run_half_two 0 0
  rw [h1] at h1'
  cases h1'
  refine ⟨f0, f1, f2, h1, ?_, ?_, by norm_num⟩
  · rw [h2]; norm_num
  · rw [h2']; norm_num

/-- C11, amended: for a freshly constructed filter and two input sequences
that differ in sample `k` only, once `numLen` or more calls have followed
the call that fed sample `k` the `inputHistory` entries below `numLen` are
the same for both sequences (the sample has been shifted out); and with
`denLen = 1` every value returned `numLen` or more calls after sample `k` is
the same for both sequences. -/
theorem C11_history_window (g : ℚ) (num den : List ℚ) (nl dl : Int) (d0 : ℚ)
    (hn1 : 1 ≤ nl) (hn : nl ≤ MAX_LEN) (hd1 : 1 ≤ dl) (hd : dl ≤ MAX_LEN)
    (hnum : nl ≤ num.length) (hden : dl ≤ den.length)
    (h0 : den[0]? = some d0) (_hne : d0 ≠ 0)
    (xs xs' : List ℚ) (k : Nat) (hlen : xs.length = xs'.length)
    (hdiff : ∀ m, m ≠ k → xs.getD m 0 = xs'.getD m 0) :
    ∃ fa fb, construct num den nl dl = .ok fa ∧ constructGain g num den nl dl = .ok fb ∧
      ∀ f0, f0 = fa ∨ f0 = fb → ∃ f1 f2 ys ys',
        f0.run xs = .ok (f1, ys) ∧ f0.run xs' = .ok (f2, ys') ∧
        ((k : Int) + nl < xs.length →
          ∀ i : Nat, (i : Int) < nl → f1.mInput.rd i = f2.mInput.rd i) ∧
        (dl = 1 → ∀ n : Nat, (k : Int) + nl ≤ n → n < xs.length →
          ys.getD n 0 = ys'.getD n 0) := by
  obtain ⟨fa, hfa, hfb, hnl, hdl, _, hin, hout, hl, hc, _, _⟩ :=
    construct_both g num den nl dl d0 hn1 hn hd1 hd hnum hden h0
  refine ⟨fa, _, hfa, hfb, ?_⟩
  have hM : MAX_LEN = 10 := rfl
  have key : ∀ f0 : DigiSys ℚ, f0.mNumLen = nl → f0.mDenLen = dl → f0.LensOk → f0.CoeffsInit →
      f0.mInput = Arr.fill 0 → f0.mOutput = Arr.fill 0 → ∃ f1 f2 ys ys',
        f0.run xs = .ok (f1, ys) ∧ f0.run xs' = .ok (f2, ys') ∧
        ((k : Int) + nl < xs.length →
          ∀ i : Nat, (i : Int) < nl → f1.mInput.rd i = f2.mInput.rd i) ∧
        (dl = 1 → ∀ n : Nat, (k : Int) + nl ≤ n → n < xs.length →
          ys.getD n 0 = ys'.getD n 0) := by
    intro f0 e1 e2 hl0 hc0 hi0 ho0
    obtain ⟨f1, ys, hr1, _, hin1, _, _⟩ := run_fresh f0 hl0 hc0 hi0 ho0 xs
    obtain ⟨f2, ys', hr2, _, hin2, _, _⟩ := run_fresh f0 hl0 hc0 hi0 ho0 xs'
    refine ⟨f1, f2, ys, ys', hr1, hr2, fun hk i hi => ?_, fun hd1' n hkn hnx => ?_⟩
    · rw [f1.mInput.rd_eq_val (by omega), f2.mInput.rd_eq_val (by omega),
        hin1 i (by omega), hin2 i (by omega), ← hlen]
      unfold past
      rw [if_pos (by omega), if_pos (by omega)]
      exact congrArg _ (hdiff _ (by omega))
    · obtain ⟨f1', zs, hz1, _, _, hfir1⟩ :=
        run_fir f0 hl0 hc0 hi0 ho0 (by rw [e2, hd1']) xs
      obtain ⟨f2', zs', hz2, _, _, hfir2⟩ :=
        run_fir f0 hl0 hc0 hi0 ho0 (by rw [e2, hd1']) xs'
      rw [hr1] at hz1
      rw [hr2] at hz2
      obtain ⟨-, rfl⟩ := Prod.mk.inj (Except.ok.inj hz1)
      obtain ⟨-, rfl⟩ := Prod.mk.inj (Except.ok.inj hz2)
      rw [hfir1 n hnx, hfir2 n (by omega)]
      congr 1
      refine Finset.sum_congr rfl fun j hj => ?_
      have hj' : j < f0.mNumLen.toNat := by simpa using hj
      rw [e1] at hj'
      unfold past
      by_cases hjn : j ≤ n
      · rw [if_pos hjn, if_pos hjn, hdiff _ (by omega)]
      · rw [if_neg hjn, if_neg hjn]
  rintro f0 (rfl | rfl)
  · exact key f0 hnl hdl hl hc hin hout
  · exact key _ hnl hdl hl hc hin hout

/-- C11 amended, at `num = [1, 2]`, `den = [2]` (no feedback), the inputs
`1, 0, 4, 6` and `9, 0, 4, 6` that differ in sample 0. -/
theorem C11_history_window_witness :
    ∃ fa fb, construct ([1, 2] : List ℚ) [2] 2 1 = .ok fa ∧
      constructGain (3 : ℚ) [1, 2] [2] 2 1 = .ok fb ∧
      ∀ f0, f0 = fa ∨ f0 = fb → ∃ f1 f2 ys ys',
        f0.run [1, 0, 4, 6] = .ok (f1, ys) ∧ f0.run [9, 0, 4, 6] = .ok (f2, ys') ∧
        (((0 : Nat) : Int) + 2 < ([1, 0, 4, 6] : List ℚ).length →
          ∀ i : Nat, (i : Int) < 2 → f1.mInput.rd i = f2.mInput.rd i) ∧
        ((1 : Int) = 1 → ∀ n : Nat, ((0 : Nat) : Int) + 2 ≤ n →
          n < ([1, 0, 4, 6] : List ℚ).length → ys.getD n 0 = ys'.getD n 0) :=
  C11_history_window 3 [1, 2] [2] 2 1 2 (by decide) (by decide) (by decide) (by decide)
    (by decide) (by decide) rfl (by norm_num) [1, 0, 4, 6] [9, 0, 4, 6] 0 rfl
    (fun m hm => by
      match m, hm with
      | 0, h => exact absurd rfl h
      | 1, _ => rfl
      | 2, _ => rfl
      | 3, _ => rfl
      | m + 4, _ => rfl)


/-- C20 (FIR window): for a freshly constructed filter with `denLen = 1` the
value a call returns depends only on that call's input and the `numLen - 1`
inputs before it: two non-empty input sequences that agree on their last
`numLen` samples (samples before the start of a sequence counting as 0)
yield the same final output, whatever came earlier. -/
theorem C20_fir_window (g : ℚ) (num den : List ℚ) (nl : Int) (d0 : ℚ)
    (hn1 : 1 ≤ nl) (hn : nl ≤ MAX_LEN) (hnum : nl ≤ num.length)
    (h0 : den[0]? = some d0) (_hne : d0 ≠ 0)
    (xs xs' : List ℚ) (hx : xs ≠ []) (hx' : xs' ≠ [])
    (hag : ∀ j : Nat, (j : Int) < nl →
      past xs (xs.length - 1) j = past xs' (xs'.length - 1) j) :
    ∃ fa fb, construct num den nl 1 = .ok fa ∧ constructGain g num den nl 1 = .ok fb ∧
      ∀ f0, f0 = fa ∨ f0 = fb → ∃ f1 f2 ys ys',
        f0.run xs = .ok (f1, ys) ∧ f0.run xs' = .ok (f2, ys') ∧
        ys.getD (xs.length - 1) 0 = ys'.getD (xs'.length - 1) 0 := by
  have hden : (1 : Int) ≤ den.length := by
    rcases Nat.eq_zero_or_pos den.length with h | h
    · rw [List.length_eq_zero] at h; subst h; simp at h0
    · omega
  obtain ⟨fa, hfa, hfb, hnl, hdl, _, hin, hout, hl, hc, _, _⟩ :=
    construct_both g num den nl 1 d0 hn1 hn (by decide) (by decide) hnum hden h0
  refine ⟨fa, _, hfa, hfb, ?_⟩
  have hp : 0 < xs.length := List.length_pos.mpr hx
  have hp' : 0 < xs'.length := List.length_pos.mpr hx'
  have key : ∀ f0 : DigiSys ℚ, f0.mNumLen = nl → f0.mDenLen = 1 → f0.LensOk → f0.CoeffsInit →
      f0.mInput = Arr.fill 0 → f0.mOutput = Arr.fill 0 → ∃ f1 f2 ys ys',
        f0.run xs = .ok (f1, ys) ∧ f0.run xs' = .ok (f2, ys') ∧
        ys.getD (xs.length - 1) 0 = ys'.getD (xs'.length - 1) 0 := by
    intro f0 e1 e2 hl0 hc0 hi0 ho0
    obtain ⟨f1, ys, hr1, _, _, hfir1⟩ := run_fir f0 hl0 hc0 hi0 ho0 e2 xs
    obtain ⟨f2, ys', hr2, _, _, hfir2⟩ := run_fir f0 hl0 hc0 hi0 ho0 e2 xs'
    refine ⟨f1, f2, ys, ys', hr1, hr2, ?_⟩
    rw [hfir1 _ (by omega), hfir2 _ (by omega)]
    congr 1
    refine Finset.sum_congr rfl fun j hj => ?_
    have hj' : j < f0.mNumLen.toNat := by simpa using hj
    rw [e1] at hj'
    rw [hag j (by omega)]
  rintro f0 (rfl | rfl)
  · exact key f0 hnl hdl hl hc hin hout
  · exact key _ hnl hdl hl hc hin hout

/-- C20 at `num = [1, 2]`, `den = [2]` and the inputs `7, 4, 6` and
`1, 0, 4, 6`, which agree on their last two samples. -/
theorem C20_fir_window_witness :
    ∃ fa fb, construct ([1, 2] : List ℚ) [2] 2 1 = .ok fa ∧
      constructGain (3 : ℚ) [1, 2] [2] 2 1 = .ok fb ∧
      ∀ f0, f0 = fa ∨ f0 = fb → ∃ f1 f2 ys ys',
        f0.run [7, 4, 6] = .ok (f1, ys) ∧ f0.run [1, 0, 4, 6] = .ok (f2, ys') ∧
        ys.getD (([7, 4, 6] : List ℚ).length - 1) 0 =
          ys'.getD (([1, 0, 4, 6] : List ℚ).length - 1) 0 :=
  C20_fir_window 3 [1, 2] [2] 2 2 (by decide) (by decide) (by decide) rfl (by norm_num)
    [7, 4, 6] [1, 0, 4, 6] (by simp) (by simp)
    (fun j hj => by
      have : j = 0 ∨ j = 1 := by omega
      rcases this with rfl | rfl <;> simp [past])

end DigiSys
